import Mathlib

/-!
Verification of the anti-plagiarism indexing and search engine.

This file gives a shallow embedding, in Lean, of the C++ core of the
repository — the text pipeline (`normalize_for_shingles_simple`,
`tokenize_spans`, FNV-1a shingle hashing), the level-5 index builder
(`worker_thread` posting production, sort + dedup, CSR emission), the
etl builder variant (`process_range`), the V5.1 single-index engine
(`SearchEngine::search_text`, `load`, `validate_csr_basic`,
`load_config_from_json`), the common search-core config loader, and the
single-directory instance of the multi-index aggregator
(`seg_search_many_json`) — and proves or refutes the specification
claims about them.

Modelling conventions:
* machine integers are `Nat` (with explicit `% 2 ^ 64` where the C++
  code relies on 64-bit wrap-around, i.e. in FNV-1a hashing), C `int`
  quantities that can be negative are `Int`;
* C `double` is modelled as `ℚ`; all score arithmetic in the engine is
  a handful of additions, multiplications and divisions of small
  integer-derived values, which `ℚ` reproduces exactly;
* `std::sort` / `std::nth_element` + `resize` + `sort` are modelled by
  a deterministic stable insertion sort (`sortByLt`) followed by
  `take`; the C++ algorithms leave the relative order of elements that
  compare equal unspecified, and the stable model is one deterministic
  refinement of that behaviour;
* byte-oriented file loading is modelled over `List Nat` byte lists
  with little-endian readers, mirroring the pointer arithmetic of
  `SearchEngine::load_v2_mmap` / `load_v1_build_csr`;
* the Mersenne-twister-driven sampled validation positions
  (`std::mt19937_64` + `std::uniform_int_distribution`, whose draws are
  implementation-defined in C++) are passed in as explicit position
  lists (`Samplers`); every theorem below either quantifies over them
  or uses a configuration with the sample counts set to 0, in which
  case the code never consults the generator.
-/

namespace AntiPlag

/-! ### Deterministic stable sorting, modelling `std::sort` on a comparator -/

/-- Stable insertion of `x` (an element occurring earlier in the input than
everything in the target list) into a list sorted by the strict comparator
`lt`. -/
def insertLe {α : Type} (lt : α → α → Bool) (x : α) : List α → List α
  | [] => [x]
  | y :: ys => if lt y x then y :: insertLe lt x ys else x :: y :: ys

/-- Stable sort by the strict comparator `lt` (deterministic model of
`std::sort` / `std::stable_sort`). -/
def sortByLt {α : Type} (lt : α → α → Bool) : List α → List α
  | [] => []
  | x :: xs => insertLe lt x (sortByLt lt xs)

theorem insertLe_cons {α : Type} (lt : α → α → Bool) (x y : α) (ys : List α) :
    insertLe lt x (y :: ys) =
      if lt y x then y :: insertLe lt x ys else x :: y :: ys := rfl

theorem insertLe_perm {α : Type} (lt : α → α → Bool) (x : α) (l : List α) :
    List.Perm (insertLe lt x l) (x :: l) := by
  induction l with
  | nil => simp [insertLe]
  | cons y ys ih =>
      by_cases h : lt y x = true
      · rw [insertLe_cons, if_pos h]
        exact (List.Perm.cons y ih).trans (List.Perm.swap x y ys)
      · rw [insertLe_cons, if_neg (by simp [h])]

theorem sortByLt_perm {α : Type} (lt : α → α → Bool) (l : List α) :
    List.Perm (sortByLt lt l) l := by
  induction l with
  | nil => simp [sortByLt]
  | cons x xs ih =>
      exact (insertLe_perm lt x (sortByLt lt xs)).trans (List.Perm.cons x ih)

theorem mem_sortByLt {α : Type} {lt : α → α → Bool} {x : α} {l : List α} :
    x ∈ sortByLt lt l ↔ x ∈ l := (sortByLt_perm lt l).mem_iff

theorem insertLe_pairwise {α : Type} {lt : α → α → Bool}
    (hasym : ∀ a b, lt a b = true → lt b a = false)
    (hneg : ∀ a b c, lt b a = false → lt c b = false → lt c a = false)
    {l : List α} (x : α)
    (hl : l.Pairwise (fun a b => lt b a = false)) :
    (insertLe lt x l).Pairwise (fun a b => lt b a = false) := by
  induction l with
  | nil => simp [insertLe]
  | cons y ys ih =>
      rcases List.pairwise_cons.mp hl with ⟨hy, hys⟩
      by_cases h : lt y x = true
      · rw [insertLe_cons, if_pos h]
        refine List.pairwise_cons.mpr ⟨?_, ih hys⟩
        intro z hz
        rcases List.mem_cons.mp ((insertLe_perm lt x ys).mem_iff.mp hz) with hz | hz
        · subst hz; exact hasym _ _ h
        · exact hy z hz
      · rw [insertLe_cons, if_neg (by simp [h])]
        refine List.pairwise_cons.mpr ⟨?_, hl⟩
        intro z hz
        rcases List.mem_cons.mp hz with hz | hz
        · subst hz; simpa using h
        · exact hneg x y z (by simpa using h) (hy z hz)

theorem sortByLt_pairwise {α : Type} {lt : α → α → Bool}
    (hasym : ∀ a b, lt a b = true → lt b a = false)
    (hneg : ∀ a b c, lt b a = false → lt c b = false → lt c a = false)
    (l : List α) :
    (sortByLt lt l).Pairwise (fun a b => lt b a = false) := by
  induction l with
  | nil => simp [sortByLt]
  | cons x xs ih => exact insertLe_pairwise hasym hneg x ih

theorem sortByLt_eq_self {α : Type} {lt : α → α → Bool} {l : List α}
    (hl : l.Pairwise (fun a b => lt b a = false)) :
    sortByLt lt l = l := by
  induction l with
  | nil => rfl
  | cons x xs ih =>
      rcases List.pairwise_cons.mp hl with ⟨hx, hxs⟩
      show insertLe lt x (sortByLt lt xs) = x :: xs
      rw [ih hxs]
      cases xs with
      | nil => rfl
      | cons y ys =>
          have h : lt y x = false := hx y (by simp)
          rw [insertLe_cons, if_neg (by simp [h])]

/-! ### Adjacent deduplication, modelling `std::unique` after a sort -/

/-- Model of `erase(unique(begin, end), end)`: collapse runs of adjacent
equal elements to a single representative. -/
def dedupAdj {α : Type} [DecidableEq α] : List α → List α
  | [] => []
  | [x] => [x]
  | x :: y :: rest => if x = y then dedupAdj (y :: rest) else x :: dedupAdj (y :: rest)

theorem dedupAdj_cons₂ {α : Type} [DecidableEq α] (x y : α) (rest : List α) :
    dedupAdj (x :: y :: rest) =
      if x = y then dedupAdj (y :: rest) else x :: dedupAdj (y :: rest) := rfl

theorem mem_dedupAdj {α : Type} [DecidableEq α] {x : α} :
    ∀ {l : List α}, x ∈ dedupAdj l ↔ x ∈ l := by
  intro l
  induction l with
  | nil => simp [dedupAdj]
  | cons a rest ih =>
      cases rest with
      | nil => simp [dedupAdj]
      | cons b rest' =>
          by_cases hab : a = b
          · rw [dedupAdj_cons₂, if_pos hab, ih]
            subst hab
            constructor
            · intro h; exact List.mem_cons_of_mem _ h
            · intro h
              rcases List.mem_cons.mp h with h | h
              · subst h; exact List.mem_cons_self _ _
              · exact h
          · rw [dedupAdj_cons₂, if_neg hab]
            simp only [List.mem_cons, ih]

theorem dedupAdj_sublist {α : Type} [DecidableEq α] :
    ∀ (l : List α), (dedupAdj l).Sublist l := by
  intro l
  induction l with
  | nil => simp [dedupAdj]
  | cons a rest ih =>
      cases rest with
      | nil => simp [dedupAdj]
      | cons b rest' =>
          by_cases hab : a = b
          · rw [dedupAdj_cons₂, if_pos hab]; exact ih.cons a
          · rw [dedupAdj_cons₂, if_neg hab]; exact ih.cons₂ a

/-- On a list sorted non-strictly by `le`, adjacent dedup yields a strictly
sorted list: the strict relation `x ≠ y ∧ le x y` holds pairwise. -/
theorem dedupAdj_pairwise_strict {α : Type} [DecidableEq α]
    {le : α → α → Prop}
    (htrans : ∀ a b c, le a b → le b c → le a c)
    (hstep : ∀ a b, a ≠ b → le a b → ∀ c, le b c → a ≠ c) :
    ∀ {l : List α}, l.Pairwise le →
      (dedupAdj l).Pairwise (fun a b => a ≠ b ∧ le a b) := by
  intro l
  induction l with
  | nil => intro _; simp [dedupAdj]
  | cons a rest ih =>
      intro hl
      rcases List.pairwise_cons.mp hl with ⟨ha, hrest⟩
      cases rest with
      | nil => simp [dedupAdj]
      | cons b rest' =>
          by_cases hab : a = b
          · rw [dedupAdj_cons₂, if_pos hab]; exact ih hrest
          · rw [dedupAdj_cons₂, if_neg hab]
            refine List.pairwise_cons.mpr ⟨?_, ih hrest⟩
            intro z hz
            have hzmem : z ∈ b :: rest' := mem_dedupAdj.mp hz
            rcases List.mem_cons.mp hzmem with h | h
            · subst h; exact ⟨hab, ha z (by simp)⟩
            · have hbz : le b z := (List.pairwise_cons.mp hrest).1 z h
              exact ⟨hstep a b hab (ha b (by simp)) z hbz,
                htrans a b z (ha b (by simp)) hbz⟩

/-! ### Text pipeline (UTF-8 decode, case folding, normalization, tokenization,
FNV-1a shingle hashing) — modelled from the repository's `text_common.h`
(`decode_utf8_cp`, `to_lower_ru_kk_tr`, `fold_equiv`, `is_word_cp`,
`normalize_for_shingles_simple`, `tokenize_spans`,
`hash_shingle_tokens_spans`). Texts are byte lists. -/

/-- Model of `decode_utf8_cp`: given the bytes from the current position,
return `(codepoint, bytes consumed, ok)`. The `ok = false` cases emit a
space (codepoint `0x20`) and resync one byte forward, as in the source. -/
def decode_utf8_cp (bytes : List Nat) : Nat × Nat × Bool :=
  match bytes with
  | [] => (0x20, 1, false)
  | c :: rest =>
    if c < 0x80 then (c, 1, true)
    else if c &&& 0xE0 = 0xC0 ∧ 1 ≤ rest.length then
      let c1 := rest.getD 0 0
      if c1 &&& 0xC0 ≠ 0x80 then (0x20, 1, false)
      else (((c &&& 0x1F) <<< 6) ||| (c1 &&& 0x3F), 2, true)
    else if c &&& 0xF0 = 0xE0 ∧ 2 ≤ rest.length then
      let c1 := rest.getD 0 0
      let c2 := rest.getD 1 0
      if c1 &&& 0xC0 ≠ 0x80 ∨ c2 &&& 0xC0 ≠ 0x80 then (0x20, 1, false)
      else (((c &&& 0x0F) <<< 12) ||| ((c1 &&& 0x3F) <<< 6) ||| (c2 &&& 0x3F), 3, true)
    else if c &&& 0xF8 = 0xF0 ∧ 3 ≤ rest.length then
      let c1 := rest.getD 0 0
      let c2 := rest.getD 1 0
      let c3 := rest.getD 2 0
      if c1 &&& 0xC0 ≠ 0x80 ∨ c2 &&& 0xC0 ≠ 0x80 ∨ c3 &&& 0xC0 ≠ 0x80 then (0x20, 1, false)
      else (((c &&& 0x07) <<< 18) ||| ((c1 &&& 0x3F) <<< 12) |||
            ((c2 &&& 0x3F) <<< 6) ||| (c3 &&& 0x3F), 4, true)
    else (0x20, 1, false)

/-- Model of `append_utf8_cp`: UTF-8 encoding of one codepoint. -/
def append_utf8_cp (cp : Nat) : List Nat :=
  if cp ≤ 0x7F then [cp]
  else if cp ≤ 0x7FF then
    [0xC0 ||| ((cp >>> 6) &&& 0x1F), 0x80 ||| (cp &&& 0x3F)]
  else if cp ≤ 0xFFFF then
    [0xE0 ||| ((cp >>> 12) &&& 0x0F), 0x80 ||| ((cp >>> 6) &&& 0x3F),
     0x80 ||| (cp &&& 0x3F)]
  else
    [0xF0 ||| ((cp >>> 18) &&& 0x07), 0x80 ||| ((cp >>> 12) &&& 0x3F),
     0x80 ||| ((cp >>> 6) &&& 0x3F), 0x80 ||| (cp &&& 0x3F)]

/-- Model of `to_lower_ru_kk_tr`: Latin, Cyrillic, Kazakh and Turkish
upper-to-lower folding. -/
def to_lower_ru_kk_tr (cp : Nat) : Nat :=
  if 0x41 ≤ cp ∧ cp ≤ 0x5A then cp + 32
  else if 0x0410 ≤ cp ∧ cp ≤ 0x042F then cp + 0x20
  else if cp = 0x0401 then 0x0451
  else if cp = 0x0406 then 0x0456
  else if cp = 0x04D8 then 0x04D9
  else if cp = 0x0492 then 0x0493
  else if cp = 0x049A then 0x049B
  else if cp = 0x04A2 then 0x04A3
  else if cp = 0x04E8 then 0x04E9
  else if cp = 0x04B0 then 0x04B1
  else if cp = 0x04AE then 0x04AF
  else if cp = 0x04BA then 0x04BB
  else if cp = 0x00C7 then 0x00E7
  else if cp = 0x00D6 then 0x00F6
  else if cp = 0x00DC then 0x00FC
  else if cp = 0x011E then 0x011F
  else if cp = 0x015E then 0x015F
  else if cp = 0x0130 then 0x0069
  else cp

/-- Model of `fold_equiv`: ё → е. -/
def fold_equiv (cp : Nat) : Nat := if cp = 0x0451 then 0x0435 else cp

/-- Model of `is_word_cp`. -/
def is_word_cp (cp : Nat) : Bool :=
  if 0x0300 ≤ cp ∧ cp ≤ 0x036F then false
  else if cp = 0x5F then true
  else if 0x30 ≤ cp ∧ cp ≤ 0x39 then true
  else if (0x61 ≤ cp ∧ cp ≤ 0x7A) ∨ (0x41 ≤ cp ∧ cp ≤ 0x5A) then true
  else if 0x00C0 ≤ cp ∧ cp ≤ 0x02AF then true
  else if 0x0400 ≤ cp ∧ cp ≤ 0x04FF then true
  else false

/-- Membership test for the fixed set of special Unicode spaces that
`normalize_for_shingles_simple` replaces by ASCII space. -/
def isSpecialSpace (cp : Nat) : Bool :=
  cp = 0x00A0 ∨ cp = 0x2009 ∨ cp = 0x200A ∨ cp = 0x202F ∨ cp = 0x2007 ∨
  cp = 0x2002 ∨ cp = 0x2003 ∨ cp = 0x2001 ∨ cp = 0x2004 ∨ cp = 0x2005 ∨
  cp = 0x2006

/-- Main loop of `normalize_for_shingles_simple`; `fuel` bounds the number
of iterations (every iteration consumes at least one byte, so the input
length is enough fuel). `prevSpace` is the `prev_space` flag. -/
def normGo : Nat → List Nat → Bool → List Nat
  | 0, _, _ => []
  | _ + 1, [], _ => []
  | fuel + 1, bytes, prevSpace =>
    let d := decode_utf8_cp bytes
    let rest := bytes.drop d.2.1
    if d.2.2 = false then
      if prevSpace then normGo fuel rest true else 0x20 :: normGo fuel rest true
    else if isSpecialSpace d.1 then
      if prevSpace then normGo fuel rest true else 0x20 :: normGo fuel rest true
    else
      let cp1 := fold_equiv (to_lower_ru_kk_tr d.1)
      let cp := if cp1 = 0x0131 then 0x69 else cp1
      if 0x0300 ≤ cp ∧ cp ≤ 0x036F then normGo fuel rest prevSpace
      else if 0x00C0 ≤ cp ∧ cp ≤ 0x02AF then
        if prevSpace then normGo fuel rest true else 0x20 :: normGo fuel rest true
      else if is_word_cp cp then append_utf8_cp cp ++ normGo fuel rest false
      else
        if prevSpace then normGo fuel rest true else 0x20 :: normGo fuel rest true

/-- Trailing and leading space trimming done at the end of
`normalize_for_shingles_simple`. -/
def trimSpaces (l : List Nat) : List Nat :=
  ((l.reverse.dropWhile (· == 0x20)).reverse).dropWhile (· == 0x20)

/-- Model of `normalize_for_shingles_simple` over byte lists. -/
def normalize_for_shingles_simple (input : List Nat) : List Nat :=
  trimSpaces (normGo input.length input false)

/-- Token span (offset and length into the normalization buffer), as in
`text_common.h`. -/
structure TokenSpan where
  off : Nat
  len : Nat
deriving DecidableEq

/-- Main loop of `tokenize_spans`: skip spaces, then take a maximal
non-space run. -/
def tokGo : Nat → List Nat → Nat → List TokenSpan
  | 0, _, _ => []
  | fuel + 1, bytes, pos =>
    let sk := (bytes.takeWhile (· == 0x20)).length
    let rest := bytes.drop sk
    match rest with
    | [] => []
    | _ :: _ =>
      let len := (rest.takeWhile (fun b => !(b == 0x20))).length
      ⟨pos + sk, len⟩ :: tokGo fuel (rest.drop len) (pos + sk + len)

/-- Model of `tokenize_spans`. -/
def tokenize_spans (text : List Nat) : List TokenSpan :=
  tokGo text.length text 0

/-- FNV-1a 64 offset basis as used by the repository
(`1469598103934665603ULL`). -/
def FNV_OFFSET : Nat := 1469598103934665603

/-- FNV-1a 64 prime (`1099511628211ULL`). -/
def FNV_PRIME : Nat := 1099511628211

/-- One FNV-1a step (`h ^= b; h *= prime`) with 64-bit wrap-around. -/
def fnvByte (h b : Nat) : Nat := ((h ^^^ b) * FNV_PRIME) % 2 ^ 64

/-- FNV-1a over a byte list starting from state `h`. -/
def fnvBytes (h : Nat) (bs : List Nat) : Nat := bs.foldl fnvByte h

/-- Bytes of a token span within the normalization buffer. -/
def spanBytes (norm : List Nat) (ts : TokenSpan) : List Nat :=
  (norm.drop ts.off).take ts.len

/-- Model of `hash_shingle_tokens_spans`: FNV-1a of the `k` tokens starting
at `start`, joined by a single ASCII space. -/
def hash_shingle_tokens_spans (norm : List Nat) (toks : List TokenSpan)
    (start k : Nat) : Nat :=
  (List.range k).foldl
    (fun h j =>
      let ts := toks.getD (start + j) ⟨0, 0⟩
      let h' := if j = 0 then h else fnvByte h 0x20
      fnvBytes h' (spanBytes norm ts))
    FNV_OFFSET

/-- ASCII byte list of a Lean string (used for the concrete ASCII test
texts below). -/
def asciiBytes (s : String) : List Nat := s.toList.map Char.toNat

/-! ### Configuration — modelled from `search_engine.h` (V5.1 `IndexConfig`)
and `SearchEngine::load_config_from_json`, plus the variant in
`common/search_core.cpp`. C `int` fields that the loaders clamp to be
at least 0/1 are carried as `Nat`; `double` is `ℚ`. -/

/-- V5.1 `IndexConfig` with its header defaults. -/
structure IndexConfig where
  w_min_doc : Nat := 8
  w_min_query : Nat := 9
  alpha : ℚ := 3 / 5
  w9 : ℚ := 9 / 10
  fetch_per_k : Nat := 64
  max_cands_doc : Nat := 1000
  max_df_for_seed : Nat := 200000
  max_q_uniq9 : Nat := 4096
  max_sum_df_seeds : Nat := 2000000
  hard_max_sum_df_seeds : Nat := 20000000
  validate_postings_samples : Nat := 64
  validate_postings_maxlen : Nat := 4096
  validate_did_samples : Nat := 200000
  validate_uniq_samples : Nat := 50000
deriving DecidableEq

/-- The default configuration (no `index_config.json` present). -/
def defaultConfig : IndexConfig := {}

/-- Parsed content of an `index_config.json` file: which keys are present
and their parsed values (`nlohmann::json` `get<int>` / `get<uint64_t>` /
`get<double>` results). -/
structure CfgJson where
  w_min_doc : Option Int := none
  w_min_query : Option Int := none
  fetch_per_k_doc : Option Int := none
  max_cands_doc : Option Int := none
  max_df_for_seed : Option Int := none
  max_q_uniq9 : Option Int := none
  max_sum_df_seeds : Option Nat := none
  hard_max_sum_df_seeds : Option Nat := none
  validate_postings_samples : Option Int := none
  validate_postings_maxlen : Option Int := none
  validate_did_samples : Option Int := none
  validate_uniq_samples : Option Int := none
  alpha : Option ℚ := none
  w9 : Option ℚ := none

/-- Model of `SearchEngine::clamp01`. -/
def clamp01 (x : ℚ) : ℚ := if x < 0 then 0 else if x > 1 then 1 else x

/-- Model of `SearchEngine::load_config_from_json` (levels_0_4 V5.1): start
from the defaults, override with present keys, then apply the lower-bound
clamps of lines 191–207. Note: this loader has no upper clamps on
`fetch_per_k` or `max_cands_doc`. -/
def load_config_from_json (j : CfgJson) : IndexConfig :=
  let wmd := j.w_min_doc.getD 8
  let wmq := j.w_min_query.getD 9
  let fpk := j.fetch_per_k_doc.getD 64
  let mcd := j.max_cands_doc.getD 1000
  let mdf := j.max_df_for_seed.getD 200000
  let mq9 := j.max_q_uniq9.getD 4096
  let msd := j.max_sum_df_seeds.getD 2000000
  let hsd := j.hard_max_sum_df_seeds.getD 20000000
  let vps := j.validate_postings_samples.getD 64
  let vpm := j.validate_postings_maxlen.getD 4096
  let vds := j.validate_did_samples.getD 200000
  let vus := j.validate_uniq_samples.getD 50000
  { w_min_doc := (if wmd < 1 then 1 else wmd).toNat
    w_min_query := (if wmq < 1 then 1 else wmq).toNat
    fetch_per_k := (if fpk < 1 then 1 else fpk).toNat
    max_cands_doc := (if mcd < 1 then 1 else mcd).toNat
    max_df_for_seed := (if mdf < 1 then 1 else mdf).toNat
    max_q_uniq9 := (if mq9 < 128 then 128 else mq9).toNat
    max_sum_df_seeds := msd
    hard_max_sum_df_seeds := if hsd < 1000000 then 1000000 else hsd
    validate_postings_samples := (if vps < 0 then 0 else vps).toNat
    validate_postings_maxlen := (if vpm < 16 then 16 else vpm).toNat
    validate_did_samples := (if vds < 0 then 0 else vds).toNat
    validate_uniq_samples := (if vus < 0 then 0 else vus).toNat
    alpha := clamp01 (j.alpha.getD (3 / 5))
    w9 := clamp01 (j.w9.getD (9 / 10)) }

/-- `Config` of `common/search_core.cpp` (only the fields that its loader
reads and clamps). -/
structure CoreConfig where
  w_min_doc : Int := 8
  w_min_query : Int := 9
  alpha : ℚ := 3 / 5
  w9 : ℚ := 9 / 10
  fetch_per_k : Int := 64
  max_cands_doc : Int := 1000
  max_df_for_seed : Int := 200000
  max_q_uniq9 : Int := 4096
  max_sum_df_seeds : Nat := 2000000

/-- Model of `load_config_from_json` in `common/search_core.cpp`
(lines 78–119), including the hard-limit clamps of lines 102–118. -/
def search_core_load_config_from_json (j : CfgJson) : CoreConfig :=
  let fpk := j.fetch_per_k_doc.getD 64
  let mcd := j.max_cands_doc.getD 1000
  let mdf := j.max_df_for_seed.getD 200000
  let mq9 := j.max_q_uniq9.getD 4096
  let msd := j.max_sum_df_seeds.getD 2000000
  { w_min_doc := j.w_min_doc.getD 8
    w_min_query := j.w_min_query.getD 9
    alpha := clamp01 (j.alpha.getD (3 / 5))
    w9 := clamp01 (j.w9.getD (9 / 10))
    fetch_per_k :=
      if fpk < 1 then 1 else if fpk > 8192 then 8192 else fpk
    max_cands_doc :=
      if mcd < 1 then 1 else if mcd > 2000000 then 2000000 else mcd
    max_df_for_seed := if mdf < 1 then 1 else mdf
    max_q_uniq9 :=
      if mq9 < 1 then 1 else if mq9 > 200000 then 200000 else mq9
    max_sum_df_seeds := if msd > 500000000 then 500000000 else msd }

/-! ### Index state (the loaded CSR index) and the level-5 builder -/

/-- Loaded index: CSR arrays, per-document token lengths (the `tok_len`
field of `DocMeta`), and the external docid sidecar. -/
structure IndexState where
  N : Nat
  uniq : List Nat
  off : List Nat
  did : List Nat
  tokLens : List Nat
  docIds : List String
deriving DecidableEq

/-- Shingle length (`constexpr int K = 9`). -/
def K : Nat := 9

/-- `MAX_TOKENS_PER_DOC` of the builder. -/
def MAX_TOKENS_PER_DOC : Nat := 100000

/-- `MAX_SHINGLES_PER_DOC` of the builder. -/
def MAX_SHINGLES_PER_DOC : Nat := 50000

/-- Model of `SearchEngine::tok_len_at`. -/
def tok_len_at (st : IndexState) (d : Nat) : Nat :=
  if d < st.N then st.tokLens.getD d 0 else 0

/-- One corpus document, after JSONL parsing: external id and text bytes. -/
structure Document where
  doc_id : String
  text : List Nat

/-- Token spans of a document in the builder, after the
`MAX_TOKENS_PER_DOC` truncation (`spans.resize`). -/
def docSpans (text : List Nat) : List TokenSpan :=
  (tokenize_spans (normalize_for_shingles_simple text)).take MAX_TOKENS_PER_DOC

/-- Whether `worker_thread` keeps a document: nonempty `doc_id`, nonempty
`text`, and at least `K` tokens after truncation. -/
def docKept (d : Document) : Bool :=
  d.doc_id ≠ "" ∧ d.text ≠ [] ∧ K ≤ (docSpans d.text).length

/-- Shingle hashes a kept document produces in `worker_thread` (positions
`0 ≤ pos < cnt`, at most `MAX_SHINGLES_PER_DOC` of them), before dedup. -/
def worker_doc_hashes (text : List Nat) : List Nat :=
  let norm := normalize_for_shingles_simple text
  let spans := docSpans text
  let cnt := spans.length - K + 1
  (List.range (min cnt MAX_SHINGLES_PER_DOC)).map
    (fun pos => hash_shingle_tokens_spans norm spans pos K)

/-- Per-document sort + unique of the shingle hashes (`local_hashes` dedup
in `worker_thread`, lines 504–505 of the level-5 builder). -/
def worker_dedup_hashes (text : List Nat) : List Nat :=
  dedupAdj (sortByLt (fun a b => decide (a < b)) (worker_doc_hashes text))

/-- All `(hash, local doc id)` postings produced by a single worker over
the kept documents, in document order (the run buffer contents). -/
def builderPairs (docs : List Document) : List (Nat × Nat) :=
  (((docs.filter docKept).enum).map
    (fun p => (worker_dedup_hashes p.2.text).map (fun h => (h, p.1)))).flatten

/-- The `(h, doc)` comparator used by `spill_run` and the merge heap. -/
def pairLt (a b : Nat × Nat) : Bool :=
  decide (a.1 < b.1 ∨ (a.1 = b.1 ∧ a.2 < b.2))

/-- Postings after the external sort and the merge-time dedup of identical
`(h, doc)` records (`merge_runs_into_run` / `merge_runs_to_temp_csr`): for
a single run this is sort by `(h, doc)` followed by adjacent dedup. -/
def mergedPairs (docs : List Document) : List (Nat × Nat) :=
  dedupAdj (sortByLt pairLt (builderPairs docs))

/-- Group a `(h, doc)`-sorted posting list by hash, preserving order
(the final CSR emission: first occurrence of each new hash opens a new
`uniq`/`off` entry, every record appends to `did`). -/
def groupPairs : List (Nat × Nat) → List (Nat × List Nat)
  | [] => []
  | (h, d) :: rest =>
    match groupPairs rest with
    | [] => [(h, [d])]
    | (h', ds) :: gs =>
      if h = h' then (h, d :: ds) :: gs else (h, [d]) :: (h', ds) :: gs

/-- CSR row-pointer array from the group contents: running offsets with a
final total (`|off| = |uniq| + 1`). -/
def offsetsFrom : List (List Nat) → Nat → List Nat
  | [], a => [a]
  | ds :: rest, a => a :: offsetsFrom rest (a + ds.length)

/-- The index built by the (single-worker instance of the) level-5 builder
from a corpus: CSR of the sorted, deduped postings, plus per-document
metadata and the docid sidecar. -/
def buildIndex (docs : List Document) : IndexState :=
  let kept := docs.filter docKept
  let gs := groupPairs (mergedPairs docs)
  { N := kept.length
    uniq := gs.map (·.1)
    off := offsetsFrom (gs.map (·.2)) 0
    did := (gs.map (·.2)).flatten
    tokLens := kept.map (fun d => (docSpans d.text).length)
    docIds := kept.map (·.doc_id) }

/-- Postings emitted by `process_range` of the etl builder variant
(`etl_index_builder.cpp`, lines 127–139): every shingle occurrence is
emitted, with no per-document dedup. -/
def etl_process_range_postings (docs : List Document) : List (Nat × Nat) :=
  (((docs.filter docKept).enum).map
    (fun p => (worker_doc_hashes p.2.text).map (fun h => (h, p.1)))).flatten

/-! ### The V5.1 hot query path (`SearchEngine::search_text`) -/

/-- A query term with its cached postings range, as in the C++ `QTerm`. -/
structure QTerm where
  h : Nat
  df : Nat
  L : Nat
  R : Nat
deriving DecidableEq

/-- The posting slice `did9_[L..R)`. Loaded indexes satisfy `R ≤ |did|`
(checked by `validate_csr_basic`), under which this drop/take is exactly
the C++ pointer range. -/
def sliceLR (st : IndexState) (L R : Nat) : List Nat :=
  (st.did.drop L).take (R - L)

/-- Model of `std::lower_bound(uniq + start, uniq + n, h)`: the first
position `≥ start` whose value is `≥ h`, else `n`. (For the sorted arrays
the loader accepts, this is what binary search returns.) -/
def lowerBoundFrom (l : List Nat) (start h : Nat) : Nat :=
  match (l.drop start).findIdx? (fun x => decide (h ≤ x)) with
  | some j => start + j
  | none => l.length

/-- Model of `SearchEngine::find_postings_hint`: result and updated hint. -/
def find_postings_hint (st : IndexState) (h hint : Nat) :
    Option (Nat × Nat) × Nat :=
  if st.uniq.length = 0 then (none, hint)
  else
    let hint' := if hint > st.uniq.length then 0 else hint
    let idx := lowerBoundFrom st.uniq hint' h
    if idx = st.uniq.length ∨ st.uniq.getD idx 0 ≠ h then (none, idx)
    else
      let L := st.off.getD idx 0
      let R := st.off.getD (idx + 1) 0
      (if L < R then some (L, R) else none, idx)

/-- The deduplicated sorted query shingle hash set (`g_tls.q_hashes` after
sort + unique), empty if the query has fewer than `K` tokens. -/
def query_hashes (text : List Nat) : List Nat :=
  let norm := normalize_for_shingles_simple text
  let spans := tokenize_spans norm
  if spans.length < K then []
  else
    let q_sh := spans.length - K + 1
    dedupAdj (sortByLt (fun a b => decide (a < b))
      ((List.range q_sh).map (fun pos => hash_shingle_tokens_spans norm spans pos K)))

/-- The qterm-building loop of `search_text` (lines 642–650): walk the
sorted query hashes carrying the lower-bound hint; skip misses, skip
`df = 0`, and skip hashes with `df > max_df_for_seed`. -/
def qtermsLoop (st : IndexState) (maxdf : Nat) : List Nat → Nat → List QTerm
  | [], _ => []
  | h :: hs, hint =>
    let r := find_postings_hint st h hint
    match r.1 with
    | none => qtermsLoop st maxdf hs r.2
    | some (L, R) =>
      let df := R - L
      if df = 0 then qtermsLoop st maxdf hs r.2
      else if df > maxdf then qtermsLoop st maxdf hs r.2
      else ⟨h, df, L, R⟩ :: qtermsLoop st maxdf hs r.2

/-- Query terms of `search_text`: the loop above, then the `max_q_uniq9`
truncation (smallest-df selection), then the sort by hash. -/
def qterms_of (st : IndexState) (cfg : IndexConfig) (text : List Nat) :
    List QTerm :=
  let base := qtermsLoop st cfg.max_df_for_seed (query_hashes text) 0
  let trunc :=
    if base.length > cfg.max_q_uniq9 then
      (sortByLt (fun a b => decide (a.df < b.df)) base).take cfg.max_q_uniq9
    else base
  sortByLt (fun a b => decide (a.h < b.h)) trunc

/-- Seed index selection (lines 674–687): indices of the qterm list,
reduced to the `min fetch_per_k |qterms|` smallest-df ones, sorted by df
ascending. -/
def seedIdxOf (qt : List QTerm) (cfg : IndexConfig) : List Nat :=
  let idx := List.range qt.length
  let maxS := min cfg.fetch_per_k qt.length
  let lt := fun a b =>
    decide ((qt.getD a ⟨0, 0, 0, 0⟩).df < (qt.getD b ⟨0, 0, 0, 0⟩).df)
  let sel := if idx.length > maxS then (sortByLt lt idx).take maxS else idx
  sortByLt lt sel

/-- The greedy cumulative-df budget loop (lines 697–702): count how many
of the seed indices are used. The first seed is always taken. -/
def seedsUsedGo (qt : List QTerm) (budget : Nat) :
    List Nat → Nat → Nat → Nat
  | [], used, _ => used
  | i :: rest, used, sum =>
    let df := (qt.getD i ⟨0, 0, 0, 0⟩).df
    if 0 < used ∧ sum + df > budget then used
    else seedsUsedGo qt budget rest (used + 1) (sum + df)

/-- Number of seeds used given the budget
(`max_sum_df_seeds`, or `hard_max_sum_df_seeds` when it is 0). -/
def seedsUsedCount (qt : List QTerm) (sIdx : List Nat) (cfg : IndexConfig) :
    Nat :=
  let budget :=
    if 0 < cfg.max_sum_df_seeds then cfg.max_sum_df_seeds
    else cfg.hard_max_sum_df_seeds
  seedsUsedGo qt budget sIdx 0 0

/-- The raw candidate docid vector: concatenation of the posting slices of
the used seeds (lines 712–716). -/
def rawOf (st : IndexState) (qt : List QTerm) (sIdx : List Nat) (used : Nat) :
    List Nat :=
  ((sIdx.take used).map
    (fun i => let t := qt.getD i ⟨0, 0, 0, 0⟩; sliceLR st t.L t.R)).flatten

/-- Loop of the run-length encoding; `fuel` bounds the iterations (every
step consumes at least one element, so the input length is enough). -/
def rleGo : Nat → List Nat → List (Nat × Nat)
  | 0, _ => []
  | _ + 1, [] => []
  | fuel + 1, d :: rest =>
    (d, 1 + (rest.takeWhile (· == d)).length) :: rleGo fuel (rest.dropWhile (· == d))

/-- Run-length encoding of the sorted raw vector into `(doc, seed_hits)`
pairs (lines 721–728). -/
def rle (l : List Nat) : List (Nat × Nat) := rleGo l.length l

/-- Candidate list: RLE of the sorted raw vector, capped at
`max_cands_doc` by largest `seed_hits`, then re-sorted by doc ascending
(lines 719–742). -/
def cands_of (cfg : IndexConfig) (raw : List Nat) : List (Nat × Nat) :=
  let cand := rle (sortByLt (fun a b => decide (a < b)) raw)
  let capped :=
    if cand.length > cfg.max_cands_doc then
      (sortByLt (fun a b => decide (b.2 < a.2)) cand).take cfg.max_cands_doc
    else cand
  sortByLt (fun a b => decide (a.1 < b.1)) capped

/-- Saturating `uint16` increment (`if (inter_cnt[j] != 0xFFFF) += 1`). -/
def satInc (c : Nat) : Nat := if c = 65535 then c else c + 1

/-- The two-pointer merge of one posting slice against the candidate array
(`merge_intersect` lambda, lines 754–770). Candidates are carried together
with their intersection counters. On a match the posting cursor also skips
duplicate docids. -/
def mergeGo : Nat → List Nat → List ((Nat × Nat) × Nat) →
    List ((Nat × Nat) × Nat)
  | 0, _, cs => cs
  | _ + 1, [], cs => cs
  | _ + 1, _ :: _, [] => []
  | fuel + 1, p :: ps, (c, cnt) :: cs =>
    if p < c.1 then mergeGo fuel ps ((c, cnt) :: cs)
    else if c.1 < p then (c, cnt) :: mergeGo fuel (p :: ps) cs
    else mergeGo fuel (ps.dropWhile (· == p)) ((c, satInc cnt) :: cs)

/-- The merge itself: every step consumes fuel 1 and shrinks
`post.length + cands.length` by at least 1, so that sum is enough fuel. -/
def merge_intersect (post : List Nat) (cs : List ((Nat × Nat) × Nat)) :
    List ((Nat × Nat) × Nat) :=
  mergeGo (post.length + cs.length) post cs

/-- The intersection refinement pass (lines 772–775): merge every qterm's
posting slice into the candidate counters, starting from all-zero. -/
def interZipOf (st : IndexState) (qt : List QTerm)
    (cands : List (Nat × Nat)) : List ((Nat × Nat) × Nat) :=
  qt.foldl (fun cs t => merge_intersect (sliceLR st t.L t.R) cs)
    (cands.map (fun c => (c, 0)))

/-- Model of `SearchEngine::jc_compute` (lines 120–125). -/
def jc_compute (inter q t : Int) : ℚ × ℚ :=
  if inter ≤ 0 ∨ q ≤ 0 ∨ t ≤ 0 then (0, 0)
  else
    let uni : Int := q + t - inter
    ((if 0 < uni then (inter : ℚ) / (uni : ℚ) else 0), (inter : ℚ) / (q : ℚ))

/-- One search hit (`SeHitLite`). -/
structure Hit where
  did : Nat
  score : ℚ
  j : ℚ
  c : ℚ
  cand_hits : Nat
deriving DecidableEq

/-- The scoring loop (lines 786–807): skip `inter = 0`, short documents and
`t_size ≤ 0`; otherwise compute Jaccard, containment and the weighted
score. `q_size` is the retained query term count. -/
def scoredOf (st : IndexState) (cfg : IndexConfig) (q_size : Nat)
    (iz : List ((Nat × Nat) × Nat)) : List Hit :=
  let alphac := clamp01 cfg.alpha
  let w9c := clamp01 cfg.w9
  iz.filterMap (fun x =>
    let did := x.1.1
    let hits := x.1.2
    let inter : Int := x.2
    if inter = 0 then none
    else
      let tokLen := tok_len_at st did
      if tokLen < cfg.w_min_doc then none
      else
        let t_size : Int := if K ≤ tokLen then (tokLen : Int) - K + 1 else 0
        if t_size ≤ 0 then none
        else
          let jc := jc_compute inter (q_size : Int) t_size
          some { did := did
                 score := w9c * (alphac * jc.1 + (1 - alphac) * jc.2)
                 j := jc.1
                 c := jc.2
                 cand_hits := hits })

/-- Seed index list stage of `search_text`. -/
def stage_seedIdx (st : IndexState) (cfg : IndexConfig) (text : List Nat) :
    List Nat :=
  seedIdxOf (qterms_of st cfg text) cfg

/-- Seeds-used count stage of `search_text`. -/
def stage_used (st : IndexState) (cfg : IndexConfig) (text : List Nat) : Nat :=
  seedsUsedCount (qterms_of st cfg text) (stage_seedIdx st cfg text) cfg

/-- Raw candidate vector stage of `search_text`. -/
def stage_raw (st : IndexState) (cfg : IndexConfig) (text : List Nat) :
    List Nat :=
  rawOf st (qterms_of st cfg text) (stage_seedIdx st cfg text)
    (stage_used st cfg text)

/-- Candidate list stage of `search_text`. -/
def stage_cands (st : IndexState) (cfg : IndexConfig) (text : List Nat) :
    List (Nat × Nat) :=
  cands_of cfg (stage_raw st cfg text)

/-- Intersection counter stage of `search_text`. -/
def stage_interZip (st : IndexState) (cfg : IndexConfig) (text : List Nat) :
    List ((Nat × Nat) × Nat) :=
  interZipOf st (qterms_of st cfg text) (stage_cands st cfg text)

/-- Scored candidate stage of `search_text`. -/
def stage_scored (st : IndexState) (cfg : IndexConfig) (text : List Nat) :
    List Hit :=
  scoredOf st cfg (qterms_of st cfg text).length (stage_interZip st cfg text)

/-- Model of `SearchEngine::search_text` (lines 586–846): the complete hot
query path, with the early returns of the source. Returns the hit list
(the C++ function fills `out` and returns its length). -/
def search_text (st : IndexState) (cfg : IndexConfig) (text : List Nat)
    (top_k : Int) : List Hit :=
  if top_k ≤ 0 then []
  else if (tokenize_spans (normalize_for_shingles_simple text)).length < K then []
  else if query_hashes text = [] then []
  else if qterms_of st cfg text = [] then []
  else if stage_used st cfg text = 0 then []
  else if stage_raw st cfg text = [] then []
  else if stage_cands st cfg text = [] then []
  else if stage_scored st cfg text = [] then []
  else
    (sortByLt (fun a b => decide (b.score < a.score))
        (stage_scored st cfg text)).take
      (min (stage_scored st cfg text).length top_k.toNat)

/-! ### Multi-index aggregation (`seg_search_many_json`), specialized to a
single already-loaded index directory — modelled from
`levels_0_4/search_segments.cpp` lines 262–489. -/

/-- Model of `clamp_topk` (`TOPK_HARD_MAX = 2000`). -/
def clamp_topk (k : Int) : Nat :=
  if k ≤ 0 then 0 else if k > 2000 then 2000 else k.toNat

/-- Model of `choose_local_k` (`LOCAL_K_HARD_MAX = 8000`). -/
def choose_local_k (k n_dirs : Nat) : Nat :=
  let lk :=
    if n_dirs ≤ 8 then k * 4
    else if n_dirs ≤ 64 then k * 3
    else if n_dirs ≤ 512 then k * 2
    else k
  let lk := if lk < k then k else lk
  if lk > 8000 then 8000 else lk

/-- Aggregated per-key hit, as in the C++ `AggHit`. -/
structure AggHit where
  best_index_dir : String
  score : ℚ
  j9 : ℚ
  c9 : ℚ
  cand_hits : Nat
  found_in : Nat
  last_seen_dir : Int
  is_fallback : Bool
  did : Nat
deriving DecidableEq

/-- Whether a local hit carries a real external docid
(`did < |doc_ids| && !doc_ids[did].empty()`). -/
def has_real_docid (ids : List String) (h : Hit) : Bool :=
  h.did < ids.length ∧ ids.getD h.did "" ≠ ""

/-- Aggregation key: the external docid when real, otherwise the
`"<dir>:<did>"` fallback. -/
def agg_key (ids : List String) (dir : String) (h : Hit) : String :=
  if has_real_docid ids h then ids.getD h.did ""
  else dir ++ ":" ++ toString h.did

/-- Updating an existing aggregation entry with a further local hit
(found_in / best-score / cand_hits tie-break logic of lines 377–394). -/
def aggUpdate (dir : String) (di : Int) (h : Hit) (fallback : Bool)
    (a : AggHit) : AggHit :=
  let a1 :=
    if a.last_seen_dir ≠ di then
      { a with found_in := a.found_in + 1, last_seen_dir := di }
    else a
  if h.score > a1.score then
    { a1 with
      score := h.score
      j9 := h.j
      c9 := h.c
      cand_hits := h.cand_hits
      best_index_dir := dir
      is_fallback := fallback
      did := h.did }
  else if h.cand_hits > a1.cand_hits then { a1 with cand_hits := h.cand_hits }
  else a1

/-- Update-or-append on the association list that models the `agg` map
(keys kept in insertion order). -/
def assocUpdate (key : String) (f : Option AggHit → AggHit) :
    List (String × AggHit) → List (String × AggHit)
  | [] => [(key, f none)]
  | (k, v) :: rest =>
    if k = key then (k, f (some v)) :: rest
    else (k, v) :: assocUpdate key f rest

/-- Folding one local hit into the aggregation map. -/
def aggStep (ids : List String) (dir : String) (di : Int)
    (agg : List (String × AggHit)) (h : Hit) : List (String × AggHit) :=
  let fallback := !has_real_docid ids h
  assocUpdate (agg_key ids dir h)
    (fun o =>
      match o with
      | none =>
        { best_index_dir := dir, score := h.score, j9 := h.j, c9 := h.c,
          cand_hits := h.cand_hits, found_in := 1, last_seen_dir := di,
          is_fallback := fallback, did := h.did }
      | some a => aggUpdate dir di h fallback a)
    agg

/-- One output hit of the multi-search JSON (`hits[]` fields). -/
structure SegOutHit where
  doc_id : String
  doc_uid : String
  best_index_dir : String
  score : ℚ
  j9 : ℚ
  c9 : ℚ
  cand_hits : Nat
  found_in : Nat
deriving DecidableEq

/-- Model of `seg_search_many_json` for a one-element directory set whose
index is already loaded as `st` with config `cfg`. Returns `none` for the
`bad_request` error envelopes, `some hits` otherwise. The bounded min-heap
plus final sort that produce the global top-k are modelled as a stable
sort by score descending followed by `take k`. -/
def seg_search_many_one (st : IndexState) (cfg : IndexConfig) (dir : String)
    (query : List Nat) (top_k : Int) : Option (List SegOutHit) :=
  let k := clamp_topk top_k
  if k = 0 then none
  else if query = [] then none
  else
    let local_k := choose_local_k k 1
    let hits := search_text st cfg query (local_k : Int)
    let agg := hits.foldl (aggStep st.docIds dir 0) []
    let top := (sortByLt (fun a b => decide (b.2.score < a.2.score)) agg).take k
    some (top.map (fun kv =>
      { doc_id := if kv.2.is_fallback then toString kv.2.did else kv.1
        doc_uid := kv.1
        best_index_dir := kv.2.best_index_dir
        score := kv.2.score
        j9 := kv.2.j9
        c9 := kv.2.c9
        cand_hits := kv.2.cand_hits
        found_in := kv.2.found_in }))

/-! ### Byte-level index loading (`SearchEngine::load`, `load_v2_mmap`,
`load_v1_build_csr`, `validate_csr_basic` and the sampled validators) -/

/-- Little-endian read of `w` bytes at offset `off` (out-of-range bytes
read as 0; the loaders bound-check before reading). -/
def readLE (bs : List Nat) (off w : Nat) : Nat :=
  (List.range w).foldr (fun i acc => acc * 256 + bs.getD (off + i) 0) 0

/-- The "PLAG" magic bytes. -/
def magicPLAG : List Nat := [0x50, 0x4C, 0x41, 0x47]

/-- Positions examined by the `std::mt19937_64`-driven sampled checks.
The C++ draw sequences are implementation-defined
(`std::uniform_int_distribution` is unspecified by the standard), so the
model takes them as parameters; the real draws for the did/posting checks
lie in `[0, D)` / `[0, U)` and for the uniq check in `[1, U)`. -/
structure Samplers where
  didPos : List Nat := []
  uniqPos : List Nat := []
  postIdx : List Nat := []

/-- Model of `SearchEngine::validate_csr_basic` (lines 232–279): `off`
boundary and monotonicity full scan, windowed `did < N` checks, then the
sampled `did < N` checks. -/
def validate_csr_basic (st : IndexState) (cfg : IndexConfig)
    (smp : Samplers) : Bool :=
  let U := st.uniq.length
  let D := st.did.length
  if st.N = 0 ∨ U = 0 then false
  else if st.off.getD 0 0 ≠ 0 then false
  else if st.off.getD U 0 ≠ D then false
  else if ¬ ((List.range U).all fun i =>
      decide (st.off.getD i 0 ≤ st.off.getD (i + 1) 0 ∧
        st.off.getD (i + 1) 0 ≤ D)) then false
  else if 0 < D then
    let win := 65536
    let checkWindow := fun (start len : Nat) =>
      (List.range' start (min D (start + len) - start)).all fun i =>
        decide (st.did.getD i 0 < st.N)
    if ¬ checkWindow 0 win then false
    else if D > win ∧
        ¬ (checkWindow (if D / 2 > win / 2 then D / 2 - win / 2 else 0) win ∧
           checkWindow (D - win) win) then false
    else if 0 < cfg.validate_did_samples ∧ 1 < D then
      (smp.didPos.take cfg.validate_did_samples).all fun pos =>
        decide (st.did.getD pos 0 < st.N)
    else true
  else true

/-- Model of `SearchEngine::validate_uniq_sorted_sample` (lines 316–353):
strict-ascent windows at start, middle and end, plus sampled adjacent
comparisons. -/
def validate_uniq_sorted_sample (st : IndexState) (cfg : IndexConfig)
    (smp : Samplers) : Bool :=
  let n := st.uniq.length
  if n = 0 then false
  else if cfg.validate_uniq_samples = 0 then true
  else
    let win := 65536
    let checkWin := fun (start : Nat) =>
      if start ≥ n then true
      else
        let e := min n (start + win)
        if e ≤ start + 1 then true
        else (List.range' (start + 1) (e - (start + 1))).all fun i =>
          decide (st.uniq.getD (i - 1) 0 < st.uniq.getD i 0)
    if ¬ checkWin 0 then false
    else if n > win ∧ ¬ (checkWin (n / 2) ∧ checkWin (n - win)) then false
    else
      let rcount := min cfg.validate_uniq_samples 200000
      if n ≤ 1 then true
      else (smp.uniqPos.take rcount).all fun kk =>
        decide (st.uniq.getD (kk - 1) 0 < st.uniq.getD kk 0)

/-- Model of `SearchEngine::validate_postings_sorted_sample`
(lines 281–314): sampled posting slices are bound-checked and checked
strictly ascending with all entries `< N` on a bounded prefix. -/
def validate_postings_sorted_sample (st : IndexState) (cfg : IndexConfig)
    (smp : Samplers) : Bool :=
  if st.N = 0 then false
  else if st.uniq.length = 0 then false
  else if cfg.validate_postings_samples = 0 then true
  else (smp.postIdx.take cfg.validate_postings_samples).all fun i =>
    let L := st.off.getD i 0
    let R := st.off.getD (i + 1) 0
    if L > R ∨ R > st.did.length then false
    else
      let len := R - L
      if len ≤ 1 then true
      else
        let checkLen := min len cfg.validate_postings_maxlen
        if st.did.getD L 0 ≥ st.N then false
        else (List.range' 1 (checkLen - 1)).all fun kk =>
          decide (st.did.getD (L + kk) 0 < st.N) &&
          decide (st.did.getD (L + kk - 1) 0 < st.did.getD (L + kk) 0)

/-- Parsing phase of `SearchEngine::load_v2_mmap`: header size and field
checks, then the section `need` bounds, then the typed views. The docid
sidecar is not part of the binary file. -/
def parse_v2 (bytes : List Nat) : Option IndexState :=
  if bytes.length < 44 then none
  else if bytes.take 4 ≠ magicPLAG then none
  else if readLE bytes 4 4 ≠ 2 then none
  else
    let N := readLE bytes 8 4
    let U := readLE bytes 12 8
    let D := readLE bytes 20 8
    if N = 0 ∨ U = 0 then none
    else if bytes.length < 44 + 20 * N + 8 * U + 8 * (U + 1) + 4 * D then none
    else
      let uniqOff := 44 + 20 * N
      let offOff := uniqOff + 8 * U
      let didOff := offOff + 8 * (U + 1)
      some { N := N
             uniq := (List.range U).map fun i => readLE bytes (uniqOff + 8 * i) 8
             off := (List.range (U + 1)).map fun i => readLE bytes (offOff + 8 * i) 8
             did := (List.range D).map fun i => readLE bytes (didOff + 4 * i) 4
             tokLens := (List.range N).map fun i => readLE bytes (44 + 20 * i) 4
             docIds := [] }

/-- Model of `SearchEngine::load_v2_mmap`: parse, then the three
validation passes. -/
def load_v2_mmap (bytes : List Nat) (cfg : IndexConfig) (smp : Samplers) :
    Option IndexState :=
  match parse_v2 bytes with
  | none => none
  | some st =>
    if validate_csr_basic st cfg smp ∧
        validate_uniq_sorted_sample st cfg smp ∧
        validate_postings_sorted_sample st cfg smp then some st
    else none

/-- Model of `SearchEngine::load_v1_build_csr`: sequential reads of the v1
layout, in-memory CSR construction by sort (no dedup) and grouping, then
`validate_csr_basic` and `validate_uniq_sorted_sample`. -/
def load_v1_build_csr (bytes : List Nat) (cfg : IndexConfig)
    (smp : Samplers) : Option IndexState :=
  if bytes.length < 4 then none
  else if bytes.take 4 ≠ magicPLAG then none
  else if bytes.length < 28 then none
  else
    let version := readLE bytes 4 4
    let N := readLE bytes 8 4
    let P9 := readLE bytes 12 8
    let P13 := readLE bytes 20 8
    if version ≠ 1 ∨ N = 0 then none
    else if bytes.length < 28 + 20 * N + 12 * P9 + 12 * P13 then none
    else
      let base := 28 + 20 * N
      let postings := (List.range P9).map fun i =>
        (readLE bytes (base + 12 * i) 8, readLE bytes (base + 12 * i + 8) 4)
      let gs := groupPairs (sortByLt pairLt postings)
      let st : IndexState :=
        { N := N
          uniq := gs.map (·.1)
          off := offsetsFrom (gs.map (·.2)) 0
          did := (gs.map (·.2)).flatten
          tokLens := (List.range N).map fun i => readLE bytes (28 + 20 * i) 4
          docIds := [] }
      if validate_csr_basic st cfg smp ∧
          validate_uniq_sorted_sample st cfg smp then some st
      else none

/-- Model of `SearchEngine::load` (lines 542–560): load the config, parse
the docid sidecar (`none` = missing or malformed JSON, which fails the
load), try the v2 loader then the v1 loader on the same bytes, and
truncate an over-long docid list to `N_docs`. A docid list shorter than
`N_docs` is kept as-is. -/
def search_engine_load (j : CfgJson) (docids : Option (List String))
    (bytes : List Nat) (smp : Samplers) : Option IndexState :=
  let cfg := load_config_from_json j
  match docids with
  | none => none
  | some ids =>
    match load_v2_mmap bytes cfg smp with
    | some st =>
      some { st with docIds := if ids.length > st.N then ids.take st.N else ids }
    | none =>
      match load_v1_build_csr bytes cfg smp with
      | some st =>
        some { st with docIds := if ids.length > st.N then ids.take st.N else ids }
      | none => none

/-- Little-endian serialization of `v` into `w` bytes. -/
def leBytes (w v : Nat) : List Nat :=
  (List.range w).map fun i => v / 256 ^ i % 256

/-- A v2 `index_native.bin` byte image for given logical arrays (header +
`DocMeta` section with zero simhash + `uniq` + `off` + `did`), used to
provide concrete loader inputs. -/
def encodeV2 (st : IndexState) : List Nat :=
  magicPLAG ++ leBytes 4 2 ++ leBytes 4 st.N ++
  leBytes 8 st.uniq.length ++ leBytes 8 st.did.length ++
  leBytes 8 0 ++ leBytes 8 0 ++
  (st.tokLens.map fun t => leBytes 4 t ++ leBytes 8 0 ++ leBytes 8 0).flatten ++
  (st.uniq.map (leBytes 8)).flatten ++
  (st.off.map (leBytes 8)).flatten ++
  (st.did.map (leBytes 4)).flatten

/-! ### Concrete test inputs shared by the claim theorems -/

/-- The single corpus document of spec scenario 1 (12 tokens). -/
def docA : Document :=
  ⟨"A", asciiBytes "the quick brown fox jumps over the lazy dog and then some"⟩

/-- The first nine tokens of `docA` (a 9-token query). -/
def query9 : List Nat := asciiBytes "the quick brown fox jumps over the lazy dog"

/-- UTF-8 bytes of the corpus text "Plagìo Ünité café" of spec scenario 4
(ì = U+00EC, Ü = U+00DC, é = U+00E9). -/
def corpusDiacritics : List Nat :=
  [0x50, 0x6C, 0x61, 0x67, 0xC3, 0xAC, 0x6F, 0x20, 0xC3, 0x9C, 0x6E, 0x69,
   0x74, 0xC3, 0xA9, 0x20, 0x63, 0x61, 0x66, 0xC3, 0xA9]

/-- The plain-ASCII query of spec scenario 4. -/
def queryPlain : List Nat := asciiBytes "plagio unite cafe"

/-- A configuration file raising `w_min_query` above the default. -/
def cfgWMQ11 : IndexConfig := { defaultConfig with w_min_query := 11 }

/-- A parsed `index_config.json` with out-of-range `fetch_per_k_doc` and
`max_cands_doc`. -/
def cfgJsonBig : CfgJson :=
  { fetch_per_k_doc := some 10000, max_cands_doc := some 3000000 }

/-- A parsed `index_config.json` that turns the sampled validators off
(all three `validate_*_samples` keys set to 0). -/
def cfgJson0 : CfgJson :=
  { validate_postings_samples := some 0, validate_did_samples := some 0,
    validate_uniq_samples := some 0 }

/-- A minimal fully valid logical index: one document, one shingle. -/
def tinyIdx : IndexState :=
  { N := 1, uniq := [42], off := [0, 1], did := [0], tokLens := [12],
    docIds := [] }

/-- An index whose single posting slice `[1, 0]` violates the
strictly-ascending `did` invariant while every entry stays `< N`. -/
def badSliceIdx : IndexState :=
  { N := 2, uniq := [42], off := [0, 2], did := [1, 0], tokLens := [12, 12],
    docIds := [] }

/-! ### C9 — diacritic folding -/

set_option maxRecDepth 100000 in
/-- C9 counterexample: normalizing the corpus text "Plagìo Ünité café" and
the query "plagio unite cafe" does NOT yield identical token streams. The
U+00C0..U+02AF drop rule replaces ì, ü (the folded Ü) and é by spaces on
the corpus side, producing "plag o nit caf", while the ASCII query is
unchanged — refuting the claim at this concrete input. -/
theorem C9_counterexample :
    normalize_for_shingles_simple corpusDiacritics ≠
      normalize_for_shingles_simple queryPlain ∧
    (tokenize_spans (normalize_for_shingles_simple corpusDiacritics)).length = 4 ∧
    (tokenize_spans (normalize_for_shingles_simple queryPlain)).length = 3 := by
  decide

set_option maxRecDepth 100000 in
/-- C9 (amended): normalization is the same pure function on both sides,
but the U+00C0..U+02AF drop rule emits a space in place of each
diacritic-carrying letter, so the corpus text "Plagìo Ünité café"
normalizes to "plag o nit caf" while the query "plagio unite cafe"
normalizes to itself; the token streams therefore differ and (both being
shorter than K = 9 tokens) the two texts produce no shingles at all,
hence no overlapping shingles. -/
theorem C9_diacritic_drop :
    normalize_for_shingles_simple corpusDiacritics = asciiBytes "plag o nit caf" ∧
    normalize_for_shingles_simple queryPlain = asciiBytes "plagio unite cafe" ∧
    query_hashes corpusDiacritics = [] ∧
    query_hashes queryPlain = [] := by
  decide

/-! ### C2 — trivial exact match scenario -/

unseal Rat.mul Rat.inv Rat.add Rat.sub in
set_option maxRecDepth 100000 in
/-- C2: indexing the single 12-token document `{"doc_id":"A","text":"the
quick brown fox jumps over the lazy dog and then some"}` with K = 9 and
the default configuration, then searching the identical text, yields
exactly one hit with `local_doc_id = 0`, `J = 1`, `C = 1`,
`score = 9/10`, intersection count 4 (visible both as the intersection
counter of candidate 0 and as `cand_hits = 4`), and external docid "A". -/
theorem C2_trivial_exact_match :
    (tokenize_spans (normalize_for_shingles_simple docA.text)).length = 12 ∧
    search_text (buildIndex [docA]) defaultConfig docA.text 10 =
      [{ did := 0, score := 9 / 10, j := 1, c := 1, cand_hits := 4 }] ∧
    stage_interZip (buildIndex [docA]) defaultConfig docA.text = [((0, 4), 4)] ∧
    (buildIndex [docA]).docIds = ["A"] := by
  decide

/-! ### C6 — short-query handling -/

unseal Rat.mul Rat.inv Rat.add Rat.sub in
set_option maxRecDepth 100000 in
/-- C6 counterexample: with `w_min_query = 11` configured, a 9-token query
(fewer than `w_min_query` tokens) does NOT return an empty result:
`search_text` only compares the token count against the constant K = 9
and never consults `w_min_query`. -/
theorem C6_counterexample :
    cfgWMQ11.w_min_query = 11 ∧
    (tokenize_spans (normalize_for_shingles_simple query9)).length = 9 ∧
    search_text (buildIndex [docA]) cfgWMQ11 query9 10 ≠ [] := by
  decide

/-- C6 (amended): a query with fewer than K = 9 tokens after normalization
returns an empty result from `search_text`, never an error; the
configured `w_min_query` is read and clamped at load time but is not
consulted by `search_text`, which uses the constant K instead. -/
theorem C6_short_query_empty (st : IndexState) (cfg : IndexConfig)
    (text : List Nat) (top_k : Int)
    (h : (tokenize_spans (normalize_for_shingles_simple text)).length < K) :
    search_text st cfg text top_k = [] := by
  unfold search_text
  split_ifs <;> rfl

set_option maxRecDepth 100000 in
/-- C6 witness: the empty-result theorem applied to a concrete two-token
query. -/
theorem C6_witness :
    (tokenize_spans (normalize_for_shingles_simple (asciiBytes "too short"))).length < K ∧
    search_text (buildIndex [docA]) defaultConfig (asciiBytes "too short") 5 = [] :=
  ⟨by decide, C6_short_query_empty _ _ _ _ (by decide)⟩

/-! ### C8 — configuration clamping -/

/-- C8 counterexample: the levels_0_4 engine's
`SearchEngine::load_config_from_json` applies no upper clamp: a config
with `fetch_per_k_doc = 10000` and `max_cands_doc = 3000000` is loaded
verbatim, outside the claimed ranges [1, 8192] and [1, 2000000]. -/
theorem C8_counterexample :
    (load_config_from_json cfgJsonBig).fetch_per_k = 10000 ∧
    8192 < (load_config_from_json cfgJsonBig).fetch_per_k ∧
    (load_config_from_json cfgJsonBig).max_cands_doc = 3000000 ∧
    2000000 < (load_config_from_json cfgJsonBig).max_cands_doc := by
  decide

/-- C8 (amended): the `common/search_core.cpp` config loader clamps
`fetch_per_k` into [1, 8192] and `max_cands_doc` into [1, 2000000] for
every parsed configuration; the levels_0_4 engine's loader enforces only
the lower bounds (≥ 1), leaving both upper ends uncapped. -/
theorem C8_core_clamps (j : CfgJson) :
    (1 ≤ (search_core_load_config_from_json j).fetch_per_k ∧
      (search_core_load_config_from_json j).fetch_per_k ≤ 8192) ∧
    (1 ≤ (search_core_load_config_from_json j).max_cands_doc ∧
      (search_core_load_config_from_json j).max_cands_doc ≤ 2000000) ∧
    1 ≤ (load_config_from_json j).fetch_per_k ∧
    1 ≤ (load_config_from_json j).max_cands_doc := by
  refine ⟨?_, ?_, ?_, ?_⟩
  · unfold search_core_load_config_from_json
    dsimp only
    split_ifs <;> omega
  · unfold search_core_load_config_from_json
    dsimp only
    split_ifs <;> omega
  · unfold load_config_from_json
    dsimp only
    split_ifs <;> omega
  · unfold load_config_from_json
    dsimp only
    split_ifs <;> omega

/-! ### C4 — loader refusal -/

theorem parse_v2_magic_none {bytes : List Nat}
    (h : bytes.take 4 ≠ magicPLAG) : parse_v2 bytes = none := by
  unfold parse_v2
  split_ifs <;> rfl

theorem parse_v2_version_none {bytes : List Nat}
    (h : readLE bytes 4 4 ≠ 2) : parse_v2 bytes = none := by
  unfold parse_v2
  split_ifs <;> rfl

theorem parse_v2_some_version {bytes : List Nat} {st : IndexState}
    (h : parse_v2 bytes = some st) : readLE bytes 4 4 = 2 := by
  by_contra hv
  rw [parse_v2_version_none hv] at h
  exact Option.noConfusion h

theorem load_v2_mmap_none_of_parse {bytes : List Nat} {cfg : IndexConfig}
    {smp : Samplers} (h : parse_v2 bytes = none) :
    load_v2_mmap bytes cfg smp = none := by
  unfold load_v2_mmap
  rw [h]

theorem load_v1_magic_none {bytes : List Nat} {cfg : IndexConfig}
    {smp : Samplers} (h : bytes.take 4 ≠ magicPLAG) :
    load_v1_build_csr bytes cfg smp = none := by
  unfold load_v1_build_csr
  split_ifs <;> rfl

theorem load_v1_version_none {bytes : List Nat} {cfg : IndexConfig}
    {smp : Samplers} (h : readLE bytes 4 4 ≠ 1) :
    load_v1_build_csr bytes cfg smp = none := by
  unfold load_v1_build_csr
  dsimp only
  split_ifs with h1 h2 h3 h4 <;> first | rfl | exact (h4 (Or.inl h)).elim

/-- Violating any of the `off`-array CSR invariants that
`validate_csr_basic` scans in full — `off[0] = 0`, `off[U] = D`, and
monotone bounded rows — makes the validation fail, for every
configuration and sampler. -/
theorem validate_csr_basic_false_of_off {st : IndexState}
    {cfg : IndexConfig} {smp : Samplers}
    (h : ¬ (st.off.getD 0 0 = 0 ∧
        st.off.getD st.uniq.length 0 = st.did.length ∧
        ∀ i < st.uniq.length,
          st.off.getD i 0 ≤ st.off.getD (i + 1) 0 ∧
          st.off.getD (i + 1) 0 ≤ st.did.length)) :
    validate_csr_basic st cfg smp = false := by
  unfold validate_csr_basic
  dsimp only
  by_cases h0 : st.N = 0 ∨ st.uniq.length = 0
  · rw [if_pos h0]
  · rw [if_neg h0]
    by_cases hA : st.off.getD 0 0 ≠ 0
    · rw [if_pos hA]
    · rw [if_neg hA]
      by_cases hB : st.off.getD st.uniq.length 0 ≠ st.did.length
      · rw [if_pos hB]
      · rw [if_neg hB]
        by_cases hC : ¬ ((List.range st.uniq.length).all fun i =>
            decide (st.off.getD i 0 ≤ st.off.getD (i + 1) 0 ∧
              st.off.getD (i + 1) 0 ≤ st.did.length))
        · rw [if_pos hC]
        · exact (h ⟨not_not.mp hA, not_not.mp hB, fun i hi =>
            of_decide_eq_true (List.all_eq_true.mp (not_not.mp hC) i
              (List.mem_range.mpr hi))⟩).elim

/-- C4 (amended): `SearchEngine::load` refuses the file on magic mismatch
(neither loader accepts it), on version mismatch (a version other than 2
fails the v2 loader and other than 1 fails the v1 fallback), and on any
violation of the `off`-array CSR invariants of a parsed v2 file, for
every configuration, docid sidecar and sampler draw. (The `did`-array
invariants are only checked on windows and sampled positions, and a
docid-length mismatch is not refused — see the counterexample.) -/
theorem C4_loader_refusals :
    (∀ (j : CfgJson) (ids : Option (List String)) (bytes : List Nat)
        (smp : Samplers), bytes.take 4 ≠ magicPLAG →
        search_engine_load j ids bytes smp = none) ∧
    (∀ (j : CfgJson) (ids : Option (List String)) (bytes : List Nat)
        (smp : Samplers), readLE bytes 4 4 ≠ 1 → readLE bytes 4 4 ≠ 2 →
        search_engine_load j ids bytes smp = none) ∧
    (∀ (j : CfgJson) (ids : Option (List String)) (bytes : List Nat)
        (smp : Samplers) (st : IndexState), parse_v2 bytes = some st →
        ¬ (st.off.getD 0 0 = 0 ∧
            st.off.getD st.uniq.length 0 = st.did.length ∧
            ∀ i < st.uniq.length,
              st.off.getD i 0 ≤ st.off.getD (i + 1) 0 ∧
              st.off.getD (i + 1) 0 ≤ st.did.length) →
        search_engine_load j ids bytes smp = none) := by
  refine ⟨?_, ?_, ?_⟩
  · intro j ids bytes smp h
    unfold search_engine_load
    cases ids with
    | none => rfl
    | some l =>
      simp only [load_v2_mmap_none_of_parse (parse_v2_magic_none h),
        load_v1_magic_none h]
  · intro j ids bytes smp h1 h2
    unfold search_engine_load
    cases ids with
    | none => rfl
    | some l =>
      simp only [load_v2_mmap_none_of_parse (parse_v2_version_none h2),
        load_v1_version_none h1]
  · intro j ids bytes smp st hp hoff
    unfold search_engine_load
    cases ids with
    | none => rfl
    | some l =>
      have hv2 : load_v2_mmap bytes (load_config_from_json j) smp = none := by
        unfold load_v2_mmap
        rw [hp]
        have hv := @validate_csr_basic_false_of_off st
          (load_config_from_json j) smp hoff
        simp [hv]
      have hv1 : load_v1_build_csr bytes (load_config_from_json j) smp = none :=
        load_v1_version_none (by rw [parse_v2_some_version hp]; decide)
      simp only [hv2, hv1]

/-- C4 witness: the refusal theorem applied to a concrete garbage file
(wrong magic). -/
theorem C4_witness :
    ([9, 9, 9, 9] : List Nat).take 4 ≠ magicPLAG ∧
    search_engine_load {} (some []) [9, 9, 9, 9] {} = none :=
  ⟨by decide, C4_loader_refusals.1 {} (some []) [9, 9, 9, 9] {} (by decide)⟩

set_option maxRecDepth 100000 in
/-- C4 counterexample: two concrete index files that `SearchEngine::load`
accepts although the claim requires refusal. First, a fully valid
one-document file together with an empty docid sidecar (length 0 ≠
N_docs = 1) loads successfully. Second, with the sampled validators
configured off (a legal `index_config.json`), a file whose posting slice
is `[1, 0]` — violating the strictly-ascending `did` CSR invariant —
also loads successfully. -/
theorem C4_counterexample :
    (search_engine_load cfgJson0 (some []) (encodeV2 tinyIdx) {} =
        some tinyIdx ∧
      (([] : List String)).length ≠ tinyIdx.N) ∧
    (search_engine_load cfgJson0 (some ["a", "b"]) (encodeV2 badSliceIdx) {} =
        some { badSliceIdx with docIds := ["a", "b"] } ∧
      sliceLR badSliceIdx 0 2 = [1, 0] ∧
      ¬ (sliceLR badSliceIdx 0 2).Pairwise (· < ·)) := by
  decide

/-! ### Membership and sortedness facts about `search_text` -/

theorem mem_search_text {st : IndexState} {cfg : IndexConfig}
    {text : List Nat} {k : Int} {h : Hit}
    (hm : h ∈ search_text st cfg text k) : h ∈ stage_scored st cfg text := by
  unfold search_text at hm
  split_ifs at hm <;>
    first
      | exact mem_sortByLt.mp (List.take_subset _ _ hm)
      | simp at hm

theorem search_text_sorted (st : IndexState) (cfg : IndexConfig)
    (text : List Nat) (k : Int) :
    (search_text st cfg text k).Pairwise (fun a b => b.score ≤ a.score) := by
  have hsorted : (sortByLt (fun a b : Hit => decide (b.score < a.score))
      (stage_scored st cfg text)).Pairwise (fun a b => b.score ≤ a.score) := by
    refine List.Pairwise.imp ?_ (sortByLt_pairwise ?_ ?_ _)
    · intro a b hab
      have : ¬ (a.score < b.score) := by simpa using hab
      exact le_of_not_lt this
    · intro a b hab
      have : b.score < a.score := by simpa using hab
      simpa using not_lt_of_lt this
    · intro a b c hba hcb
      have h1 : ¬ (a.score < b.score) := by simpa using hba
      have h2 : ¬ (b.score < c.score) := by simpa using hcb
      simpa using not_lt_of_le (le_trans (le_of_not_lt h2) (le_of_not_lt h1))
  unfold search_text
  split_ifs <;>
    first
      | exact hsorted.sublist (List.take_sublist _ _)
      | exact List.Pairwise.nil

/-- Anatomy of a scored hit: every member of `scoredOf` comes from a
candidate/counter pair with a nonzero intersection, a token length at
least `w_min_doc` and at least `K`, and carries the Jaccard, containment
and weighted score computed from them. -/
theorem mem_scoredOf {st : IndexState} {cfg : IndexConfig} {q_size : Nat}
    {iz : List ((Nat × Nat) × Nat)} {h : Hit}
    (hm : h ∈ scoredOf st cfg q_size iz) :
    ∃ x ∈ iz, h.did = x.1.1 ∧ h.cand_hits = x.1.2 ∧ x.2 ≠ 0 ∧
      cfg.w_min_doc ≤ tok_len_at st x.1.1 ∧
      K ≤ tok_len_at st x.1.1 ∧
      h.j = (jc_compute (x.2 : Int) (q_size : Int)
        ((tok_len_at st x.1.1 : Int) - K + 1)).1 ∧
      h.c = (jc_compute (x.2 : Int) (q_size : Int)
        ((tok_len_at st x.1.1 : Int) - K + 1)).2 ∧
      h.score = clamp01 cfg.w9 *
        (clamp01 cfg.alpha * h.j + (1 - clamp01 cfg.alpha) * h.c) := by
  unfold scoredOf at hm
  rcases List.mem_filterMap.mp hm with ⟨x, hx, hfx⟩
  dsimp only at hfx
  by_cases c1 : (x.2 : Int) = 0
  · rw [if_pos c1] at hfx; exact Option.noConfusion hfx
  rw [if_neg c1] at hfx
  by_cases c2 : tok_len_at st x.1.1 < cfg.w_min_doc
  · rw [if_pos c2] at hfx; exact Option.noConfusion hfx
  rw [if_neg c2] at hfx
  by_cases c3 : K ≤ tok_len_at st x.1.1
  · rw [if_pos c3] at hfx
    by_cases c4 : (tok_len_at st x.1.1 : Int) - K + 1 ≤ 0
    · rw [if_pos c4] at hfx; exact Option.noConfusion hfx
    · rw [if_neg c4] at hfx
      cases Option.some.inj hfx
      exact ⟨x, hx, rfl, rfl, by exact_mod_cast c1, le_of_not_lt c2, c3,
        rfl, rfl, rfl⟩
  · rw [if_neg c3, if_pos (le_refl (0 : Int))] at hfx
    exact Option.noConfusion hfx

/-! ### C10 — rogue docid safety -/

/-- C10: even if a loaded index's `did` array contains an entry that is not
less than `N_docs`, `search_text` never scores or returns it:
(1) `tok_len_at` returns 0 for any docid `≥ N_docs`;
(2) `load_config_from_json` clamps `w_min_doc` to at least 1;
(3) whenever `w_min_doc ≥ 1`, every hit returned by `search_text` — on any
index state, valid or not — has `local_doc_id < N_docs`, because the
scoring loop skips every candidate whose token length is below
`w_min_doc`. -/
theorem C10_rogue_did_safety :
    (∀ (st : IndexState) (d : Nat), st.N ≤ d → tok_len_at st d = 0) ∧
    (∀ j : CfgJson, 1 ≤ (load_config_from_json j).w_min_doc) ∧
    (∀ (st : IndexState) (cfg : IndexConfig) (text : List Nat) (k : Int)
        (h : Hit), 1 ≤ cfg.w_min_doc → h ∈ search_text st cfg text k →
        h.did < st.N) := by
  refine ⟨?_, ?_, ?_⟩
  · intro st d hd
    unfold tok_len_at
    rw [if_neg (by omega)]
  · intro j
    unfold load_config_from_json
    dsimp only
    split_ifs <;> omega
  · intro st cfg text k h hw hmem
    have hsc := mem_search_text hmem
    rw [stage_scored] at hsc
    rcases mem_scoredOf hsc with ⟨x, _, hdid, _, _, hwmin, _⟩
    rw [hdid]
    by_contra hge
    have hz : tok_len_at st x.1.1 = 0 := by
      unfold tok_len_at
      rw [if_neg hge]
    rw [hz] at hwmin
    omega

unseal Rat.mul Rat.inv Rat.add Rat.sub in
set_option maxRecDepth 100000 in
/-- C10 witness: the safety theorem applied to the concrete one-document
index and query of scenario 1. -/
theorem C10_witness :
    1 ≤ defaultConfig.w_min_doc ∧
    ({ did := 0, score := 9 / 10, j := 1, c := 1, cand_hits := 4 } : Hit) ∈
      search_text (buildIndex [docA]) defaultConfig docA.text 10 ∧
    ({ did := 0, score := 9 / 10, j := 1, c := 1, cand_hits := 4 } : Hit).did <
      (buildIndex [docA]).N :=
  ⟨by decide, by decide,
   C10_rogue_did_safety.2.2 (buildIndex [docA]) defaultConfig docA.text 10 _
     (by decide) (by decide)⟩

/-! ### Correctness of the two-pointer intersection merge -/

theorem mem_dropWhile_of_ne {l : List Nat} {x p : Nat}
    (hx : x ∈ l) (hne : x ≠ p) : x ∈ l.dropWhile (· == p) := by
  induction l with
  | nil => cases hx
  | cons q rest ih =>
      rw [List.dropWhile_cons]
      by_cases hq : (q == p) = true
      · rw [if_pos hq]
        rcases List.mem_cons.mp hx with h | h
        · exact absurd (by simpa using hq) (h ▸ hne)
        · exact ih h
      · rw [if_neg hq]
        exact hx

theorem lt_of_mem_dropWhile_sorted {p : Nat} {ps : List Nat}
    (hs : (p :: ps).Pairwise (· ≤ ·)) :
    ∀ y ∈ ps.dropWhile (· == p), p < y := by
  induction ps with
  | nil => intro y hy; cases hy
  | cons q ps' ih =>
      rcases List.pairwise_cons.mp hs with ⟨hp, hq⟩
      intro y hy
      rw [List.dropWhile_cons] at hy
      by_cases hqp : (q == p) = true
      · have hqp' : q = p := by simpa using hqp
        rw [if_pos hqp] at hy
        refine ih ?_ y hy
        refine List.pairwise_cons.mpr ⟨?_, (List.pairwise_cons.mp hq).2⟩
        intro a ha
        exact hqp' ▸ (List.pairwise_cons.mp hq).1 a ha
      · rw [if_neg hqp] at hy
        have hqne : q ≠ p := by simpa using hqp
        have hle : p ≤ q := hp q (by simp)
        rcases List.mem_cons.mp hy with h | h
        · exact h ▸ lt_of_le_of_ne hle (Ne.symm hqne)
        · exact lt_of_lt_of_le (lt_of_le_of_ne hle (Ne.symm hqne))
            ((List.pairwise_cons.mp hq).1 y h)

/-- The two-pointer merge of a sorted posting slice against a candidate
list with strictly increasing docids increments exactly the counters of
candidates whose docid occurs in the slice (saturating). -/
theorem mergeGo_eq :
    ∀ (fuel : Nat) (post : List Nat) (cs : List ((Nat × Nat) × Nat)),
      post.length + cs.length ≤ fuel →
      post.Pairwise (· ≤ ·) →
      cs.Pairwise (fun a b => a.1.1 < b.1.1) →
      mergeGo fuel post cs =
        cs.map (fun c => (c.1, if c.1.1 ∈ post then satInc c.2 else c.2)) := by
  intro fuel
  induction fuel with
  | zero =>
      intro post cs hlen _ _
      have hcs : cs = [] := List.length_eq_zero.mp (by omega)
      subst hcs
      cases post <;> rfl
  | succ fuel ih =>
      intro post cs hlen hpost hcs
      match post, cs with
      | [], cs => simp [mergeGo]
      | p :: ps, [] => rfl
      | p :: ps, (c, cnt) :: cs' =>
        rcases List.pairwise_cons.mp hcs with ⟨hc, hcs'⟩
        rcases List.pairwise_cons.mp hpost with ⟨hple, hps⟩
        by_cases h1 : p < c.1
        · have heq : mergeGo (fuel + 1) (p :: ps) ((c, cnt) :: cs') =
              mergeGo fuel ps ((c, cnt) :: cs') := by
            simp only [mergeGo, if_pos h1]
          rw [heq, ih ps ((c, cnt) :: cs')
            (by simp only [List.length_cons] at hlen ⊢; omega) hps hcs]
          refine List.map_congr_left ?_
          intro x hx
          have hxp : x.1.1 ≠ p := by
            rcases List.mem_cons.mp hx with h | h
            · exact h ▸ Nat.ne_of_gt h1
            · exact Nat.ne_of_gt (lt_trans h1 (hc x h))
          simp [List.mem_cons, hxp]
        · by_cases h2 : c.1 < p
          · have heq : mergeGo (fuel + 1) (p :: ps) ((c, cnt) :: cs') =
                (c, cnt) :: mergeGo fuel (p :: ps) cs' := by
              simp only [mergeGo, if_neg h1, if_pos h2]
            have hnotmem : c.1 ∉ p :: ps := by
              intro hmem
              rcases List.mem_cons.mp hmem with h | h
              · omega
              · exact absurd (hple c.1 h) (by omega)
            rw [heq, ih (p :: ps) cs'
              (by simp only [List.length_cons] at hlen ⊢; omega) hpost hcs']
            have hnor : ¬ (c.1 = p ∨ c.1 ∈ ps) := by
              simpa [List.mem_cons] using hnotmem
            simp [List.mem_cons, hnor]
          · have hpc : p = c.1 := by omega
            have heq : mergeGo (fuel + 1) (p :: ps) ((c, cnt) :: cs') =
                mergeGo fuel (ps.dropWhile (· == p)) ((c, satInc cnt) :: cs') := by
              simp only [mergeGo, if_neg h1, if_neg h2]
            have hlen' : (ps.dropWhile (· == p)).length +
                ((c, satInc cnt) :: cs').length ≤ fuel := by
              have := (List.dropWhile_sublist (l := ps) (· == p)).length_le
              simp only [List.length_cons] at hlen ⊢
              omega
            have hps' : (ps.dropWhile (· == p)).Pairwise (· ≤ ·) :=
              hps.sublist (List.dropWhile_sublist _)
            have hcs2 : ((c, satInc cnt) :: cs').Pairwise
                (fun a b => a.1.1 < b.1.1) :=
              List.pairwise_cons.mpr ⟨fun y hy => hc y hy, hcs'⟩
            rw [heq, ih _ _ hlen' hps' hcs2]
            have hcmem : c.1 ∈ p :: ps := by rw [hpc] at *; simp
            have hcnot : c.1 ∉ ps.dropWhile (· == p) := by
              intro hmem
              exact absurd (lt_of_mem_dropWhile_sorted hpost c.1 hmem)
                (by omega)
            simp only [List.map_cons, if_neg hcnot, if_pos hcmem]
            refine congrArg _ (List.map_congr_left ?_)
            intro y hy
            have hy1 : p < y.1.1 := hpc ▸ hc y hy
            have hmemiff : (y.1.1 ∈ ps.dropWhile (· == p)) ↔
                (y.1.1 ∈ p :: ps) := by
              refine ⟨fun hm => List.mem_cons_of_mem _
                ((List.dropWhile_sublist _).mem hm), fun hm => ?_⟩
              rcases List.mem_cons.mp hm with h | h
              · omega
              · exact mem_dropWhile_of_ne h (Nat.ne_of_gt hy1)
            simp only [hmemiff]

theorem merge_intersect_eq {post : List Nat}
    {cs : List ((Nat × Nat) × Nat)}
    (hpost : post.Pairwise (· ≤ ·))
    (hcs : cs.Pairwise (fun a b => a.1.1 < b.1.1)) :
    merge_intersect post cs =
      cs.map (fun c => (c.1, if c.1.1 ∈ post then satInc c.2 else c.2)) :=
  mergeGo_eq _ post cs (le_refl _) hpost hcs

theorem satInc_min (k : Nat) : satInc (min k 65535) = min (k + 1) 65535 := by
  unfold satInc
  split_ifs <;> omega

/-- The intersection fold over all query terms: starting from saturated
base counts `min (f c) 65535`, it produces the saturated counts of
slice-membership over the processed terms. -/
theorem interZip_fold (st : IndexState) :
    ∀ (qt : List QTerm) (f : Nat × Nat → Nat) (cands : List (Nat × Nat)),
      (∀ t ∈ qt, (sliceLR st t.L t.R).Pairwise (· ≤ ·)) →
      cands.Pairwise (fun a b => a.1 < b.1) →
      qt.foldl (fun cs t => merge_intersect (sliceLR st t.L t.R) cs)
          (cands.map (fun c => (c, min (f c) 65535))) =
        cands.map (fun c =>
          (c, min (f c + qt.countP
              (fun t => decide (c.1 ∈ sliceLR st t.L t.R))) 65535)) := by
  intro qt
  induction qt with
  | nil => intro f cands _ _; simp
  | cons t ts ih =>
      intro f cands hsl hcands
      have hstep : merge_intersect (sliceLR st t.L t.R)
          (cands.map (fun c => (c, min (f c) 65535))) =
          cands.map (fun c =>
            (c, min (f c + (if c.1 ∈ sliceLR st t.L t.R then 1 else 0))
              65535)) := by
        rw [merge_intersect_eq (hsl t (by simp))
          (List.pairwise_map.mpr (by simpa using hcands))]
        rw [List.map_map]
        refine List.map_congr_left ?_
        intro c _
        by_cases hmem : c.1 ∈ sliceLR st t.L t.R
        · simp [hmem, satInc_min]
        · simp [hmem]
      rw [List.foldl_cons, hstep,
        ih (fun c => f c + (if c.1 ∈ sliceLR st t.L t.R then 1 else 0)) cands
          (fun u hu => hsl u (by simp [hu])) hcands]
      refine List.map_congr_left ?_
      intro c _
      have : f c + (if c.1 ∈ sliceLR st t.L t.R then 1 else 0) +
          ts.countP (fun u => decide (c.1 ∈ sliceLR st u.L u.R)) =
          f c + (t :: ts).countP
            (fun u => decide (c.1 ∈ sliceLR st u.L u.R)) := by
        rw [List.countP_cons]
        by_cases hmem : c.1 ∈ sliceLR st t.L t.R <;>
          (simp [hmem]
           all_goals omega)
      rw [this]

/-- The full intersection pass: with sorted posting slices and strictly
increasing candidates, the counter of each candidate is exactly the
saturated count of query terms whose posting slice contains it. -/
theorem interZipOf_eq {st : IndexState} {qt : List QTerm}
    {cands : List (Nat × Nat)}
    (hsl : ∀ t ∈ qt, (sliceLR st t.L t.R).Pairwise (· ≤ ·))
    (hcands : cands.Pairwise (fun a b => a.1 < b.1)) :
    interZipOf st qt cands =
      cands.map (fun c =>
        (c, min (qt.countP (fun t => decide (c.1 ∈ sliceLR st t.L t.R)))
          65535)) := by
  have h0 : (cands.map (fun c => (c, 0)) :
      List ((Nat × Nat) × Nat)) =
      cands.map (fun c => (c, min ((fun _ => 0) c) 65535)) := by
    simp
  unfold interZipOf
  rw [h0, interZip_fold st qt (fun _ => 0) cands hsl hcands]
  simp

/-! ### Structure of the candidate list -/

theorem rleGo_fst_mem :
    ∀ {fuel : Nat} {l : List Nat} {x : Nat × Nat},
      x ∈ rleGo fuel l → x.1 ∈ l := by
  intro fuel
  induction fuel with
  | zero => intro l x hx; cases hx
  | succ fuel ih =>
      intro l x hx
      match l with
      | [] => cases hx
      | d :: rest =>
        rcases List.mem_cons.mp hx with h | h
        · rw [h]; simp
        · exact List.mem_cons_of_mem _
            ((List.dropWhile_sublist _).mem (ih h))

theorem rleGo_pairwise :
    ∀ {fuel : Nat} {l : List Nat}, l.Pairwise (· ≤ ·) →
      (rleGo fuel l).Pairwise (fun a b => a.1 < b.1) := by
  intro fuel
  induction fuel with
  | zero => intro l _; exact List.Pairwise.nil
  | succ fuel ih =>
      intro l hl
      match l with
      | [] => exact List.Pairwise.nil
      | d :: rest =>
        refine List.pairwise_cons.mpr ⟨?_, ih (((List.pairwise_cons.mp
          hl).2).sublist (List.dropWhile_sublist _))⟩
        intro y hy
        exact lt_of_mem_dropWhile_sorted hl y.1 (rleGo_fst_mem hy)

theorem rle_pairwise {l : List Nat} (hl : l.Pairwise (· ≤ ·)) :
    (rle l).Pairwise (fun a b => a.1 < b.1) := rleGo_pairwise hl

theorem rle_fst_mem {l : List Nat} {x : Nat × Nat} (hx : x ∈ rle l) :
    x.1 ∈ l := rleGo_fst_mem hx

/-- The sorted raw vector is non-decreasing. -/
theorem sortNat_pairwise (l : List Nat) :
    (sortByLt (fun a b => decide (a < b)) l).Pairwise (· ≤ ·) := by
  refine List.Pairwise.imp ?_ (sortByLt_pairwise ?_ ?_ l)
  · intro a b h
    have : ¬ (b < a) := by simpa using h
    omega
  · intro a b h
    simp at h ⊢
    omega
  · intro a b c h1 h2
    simp at h1 h2 ⊢
    omega

/-- The candidate list of `cands_of` always has strictly increasing docids:
the RLE of the sorted raw vector has strictly increasing (hence nodup)
keys, the cap keeps a sub-permutation, and the final sort restores
ascending order. -/
theorem cands_of_pairwise (cfg : IndexConfig) (raw : List Nat) :
    (cands_of cfg raw).Pairwise (fun a b => a.1 < b.1) := by
  unfold cands_of
  set cand := rle (sortByLt (fun a b => decide (a < b)) raw) with hcand
  have hcp : cand.Pairwise (fun a b => a.1 < b.1) :=
    rle_pairwise (sortNat_pairwise raw)
  set capped := if cand.length > cfg.max_cands_doc then
      (sortByLt (fun a b => decide (b.2 < a.2)) cand).take cfg.max_cands_doc
    else cand with hcapped
  have hnodup : (capped.map Prod.fst).Nodup := by
    have hnc : (cand.map Prod.fst).Nodup :=
      List.pairwise_map.mpr (hcp.imp fun h => Nat.ne_of_lt h)
    rw [hcapped]
    split
    · rw [List.map_take]
      refine (List.take_sublist _ _).nodup ?_
      exact ((sortByLt_perm _ cand).map Prod.fst).nodup_iff.mpr hnc
    · exact hnc
  have hle : (sortByLt (fun a b => decide (a.1 < b.1)) capped).Pairwise
      (fun a b => a.1 ≤ b.1) := by
    refine List.Pairwise.imp ?_ (sortByLt_pairwise ?_ ?_ capped)
    · intro a b h
      have : ¬ (b.1 < a.1) := by simpa using h
      omega
    · intro a b h
      simp at h ⊢
      omega
    · intro a b c h1 h2
      simp at h1 h2 ⊢
      omega
  have hne : (sortByLt (fun a b => decide (a.1 < b.1)) capped).Pairwise
      (fun a b => a.1 ≠ b.1) := by
    have : ((sortByLt (fun a b => decide (a.1 < b.1)) capped).map
        Prod.fst).Nodup :=
      ((sortByLt_perm _ capped).map Prod.fst).nodup_iff.mpr hnodup
    exact List.pairwise_map.mp this
  exact (hle.and hne).imp fun h => lt_of_le_of_ne h.1 h.2

/-! ### Structure of the query term list -/

theorem lowerBoundFrom_le (l : List Nat) (start h : Nat) :
    lowerBoundFrom l start h ≤ l.length := by
  unfold lowerBoundFrom
  cases hf : (l.drop start).findIdx? (fun x => decide (h ≤ x)) with
  | none => exact le_refl _
  | some j =>
      rcases List.findIdx?_eq_some_iff_getElem.mp hf with ⟨hj, _⟩
      rw [List.length_drop] at hj
      show start + j ≤ l.length
      omega

/-- Every query term produced by the qterm loop has a positive df bounded
by `max_df_for_seed` and identifies a real `uniq` position whose hash is
the term's hash and whose `off` pair delimits its slice. -/
theorem mem_qtermsLoop {st : IndexState} {maxdf : Nat} :
    ∀ {hs : List Nat} {hint : Nat} {t : QTerm},
      t ∈ qtermsLoop st maxdf hs hint →
      t.h ∈ hs ∧ 0 < t.df ∧ t.df ≤ maxdf ∧ t.df = t.R - t.L ∧
        ∃ idx, idx < st.uniq.length ∧ st.uniq.getD idx 0 = t.h ∧
          t.L = st.off.getD idx 0 ∧ t.R = st.off.getD (idx + 1) 0 ∧
          t.L < t.R := by
  intro hs
  induction hs with
  | nil => intro hint t ht; cases ht
  | cons h0 hs' ih =>
      intro hint t ht
      rw [qtermsLoop] at ht
      rcases hr : find_postings_hint st h0 hint with ⟨res, hint'⟩
      rw [hr] at ht
      rcases res with _ | ⟨L, R⟩
      · dsimp only at ht
        have hres := ih ht
        exact ⟨List.mem_cons_of_mem _ hres.1, hres.2⟩
      · dsimp only at ht
        by_cases hdf0 : R - L = 0
        · rw [if_pos hdf0] at ht
          have hres := ih ht
          exact ⟨List.mem_cons_of_mem _ hres.1, hres.2⟩
        · rw [if_neg hdf0] at ht
          by_cases hdfm : R - L > maxdf
          · rw [if_pos hdfm] at ht
            have hres := ih ht
            exact ⟨List.mem_cons_of_mem _ hres.1, hres.2⟩
          · rw [if_neg hdfm] at ht
            rcases List.mem_cons.mp ht with heq | htail
            · subst heq
              unfold find_postings_hint at hr
              by_cases hu : st.uniq.length = 0
              · rw [if_pos hu] at hr
                exact absurd (congrArg Prod.fst hr) (by simp)
              · rw [if_neg hu] at hr
                dsimp only at hr
                by_cases hmiss :
                    lowerBoundFrom st.uniq
                        (if hint > st.uniq.length then 0 else hint) h0 =
                      st.uniq.length ∨
                    st.uniq.getD (lowerBoundFrom st.uniq
                      (if hint > st.uniq.length then 0 else hint) h0) 0 ≠ h0
                · rw [if_pos hmiss] at hr
                  exact absurd (congrArg Prod.fst hr) (by simp)
                · rw [if_neg hmiss] at hr
                  push_neg at hmiss
                  have hLR := congrArg Prod.fst hr
                  dsimp only at hLR
                  set idx := lowerBoundFrom st.uniq
                    (if hint > st.uniq.length then 0 else hint) h0 with hidxd
                  by_cases hlt : st.off.getD idx 0 < st.off.getD (idx + 1) 0
                  · rw [if_pos hlt] at hLR
                    have hL : st.off.getD idx 0 = L :=
                      congrArg Prod.fst (Option.some.inj hLR)
                    have hR : st.off.getD (idx + 1) 0 = R :=
                      congrArg Prod.snd (Option.some.inj hLR)
                    have hidx : idx < st.uniq.length :=
                      lt_of_le_of_ne (lowerBoundFrom_le _ _ _) hmiss.1
                    refine ⟨by simp, by show 0 < R - L; omega,
                      by simpa using Nat.le_of_not_lt hdfm, rfl,
                      idx, hidx, hmiss.2, hL.symm, hR.symm,
                      by show L < R; omega⟩
                  · rw [if_neg hlt] at hLR
                    exact Option.noConfusion hLR
            · have hres := ih htail
              exact ⟨List.mem_cons_of_mem _ hres.1, hres.2⟩

/-- The hashes of the qterm-loop output form a sublist of the processed
hash list. -/
theorem qtermsLoop_hashes_sublist {st : IndexState} {maxdf : Nat} :
    ∀ (hs : List Nat) (hint : Nat),
      ((qtermsLoop st maxdf hs hint).map (·.h)).Sublist hs := by
  intro hs
  induction hs with
  | nil => intro hint; simp [qtermsLoop]
  | cons h0 hs' ih =>
      intro hint
      rw [qtermsLoop]
      rcases hr : (find_postings_hint st h0 hint) with ⟨res, hint'⟩
      match res with
      | none => exact (ih hint').cons h0
      | some (L, R) =>
          dsimp only
          split_ifs
          · exact (ih hint').cons h0
          · exact (ih hint').cons h0
          · exact List.Sublist.cons₂ h0 (ih hint')

theorem mem_qterms_of {st : IndexState} {cfg : IndexConfig} {text : List Nat}
    {t : QTerm} (ht : t ∈ qterms_of st cfg text) :
    t ∈ qtermsLoop st cfg.max_df_for_seed (query_hashes text) 0 := by
  unfold qterms_of at ht
  rw [mem_sortByLt] at ht
  split at ht
  · exact mem_sortByLt.mp (List.take_subset _ _ ht)
  · exact ht

/-! ### C1 — high-df terms and the intersection pass -/

/-- Posting slice of an arbitrary hash, looked up directly in `uniq`
(irrespective of document frequency). Used to state what the claim's
"every query term still contributes to the intersection pass" would
predict. -/
def sliceOfHash (st : IndexState) (h : Nat) : List Nat :=
  match st.uniq.findIdx? (· == h) with
  | some i => sliceLR st (st.off.getD i 0) (st.off.getD (i + 1) 0)
  | none => []

/-- A 10-token query producing exactly two shingle hashes. -/
def ceQuery : List Nat :=
  asciiBytes "alpha beta gamma delta epsilon zeta eta theta iota kappa"

/-- A two-document index in which the smaller query hash has document
frequency 2 (docs 0 and 1) and the larger has document frequency 1
(doc 0 only). The two `uniq` entries are precisely the two shingle
hashes of `ceQuery` (verified inside the counterexample theorem). -/
def ceStateC1 : IndexState :=
  { N := 2
    uniq := [13650892492228311658, 13787845689273605041]
    off := [0, 2, 3]
    did := [0, 1, 0]
    tokLens := [12, 12]
    docIds := ["A", "B"] }

/-- A configuration whose `max_df_for_seed` is 1, so the df-2 hash is "too
common to seed". -/
def ceCfgC1 : IndexConfig := { defaultConfig with max_df_for_seed := 1 }

unseal Rat.mul Rat.inv Rat.add Rat.sub in
set_option maxRecDepth 100000 in
/-- C1 counterexample: the query hash `13650892492228311658` has df = 2 >
`max_df_for_seed` = 1 and its posting slice contains candidate doc 0, so
under the claim it would still contribute to the intersection pass,
giving doc 0 an intersection count of 2 out of |Q| = 2 and Jaccard
`2/(2+4-2) = 1/2`. The engine instead drops the hash from the query term
set entirely (line 648), leaving one retained term; the computed
intersection count is 1 and the returned hit carries `j = 1/4 ≠ 1/2`. -/
theorem C1_counterexample :
    query_hashes ceQuery = [13650892492228311658, 13787845689273605041] ∧
    ceCfgC1.max_df_for_seed = 1 ∧
    sliceOfHash ceStateC1 13650892492228311658 = [0, 1] ∧
    (query_hashes ceQuery).countP
      (fun h => decide ((0 : Nat) ∈ sliceOfHash ceStateC1 h)) = 2 ∧
    (qterms_of ceStateC1 ceCfgC1 ceQuery).map (fun t => t.h) =
      [13787845689273605041] ∧
    stage_interZip ceStateC1 ceCfgC1 ceQuery = [((0, 1), 1)] ∧
    search_text ceStateC1 ceCfgC1 ceQuery 10 =
      [{ did := 0, score := 99 / 200, j := 1 / 4, c := 1, cand_hits := 1 }] ∧
    jc_compute 2 2 4 = (1 / 2, 1) ∧ ((1 : ℚ) / 2) ≠ 1 / 4 := by
  decide

/-- C1 (amended): in the single-index engine, a query hash whose document
frequency exceeds `max_df_for_seed` is dropped from the query term set
entirely — it is neither a seed nor part of the intersection pass (and it
does not count toward |Q|). For every retained query term the claim
holds: each retained term has `0 < df ≤ max_df_for_seed` and addresses a
real `uniq`/`off` slice, and the intersection refinement two-pointer
merges every retained term's posting slice with the candidate array —
the resulting counter of each candidate equals the number of retained
terms whose slice contains it, saturated at `0xFFFF` (provided the
slices are sorted, which load-time validation samples and every built
index satisfies). -/
theorem C1_intersection_of_retained_terms (st : IndexState)
    (cfg : IndexConfig) (text : List Nat)
    (hsl : ∀ t ∈ qterms_of st cfg text,
      (sliceLR st t.L t.R).Pairwise (· ≤ ·)) :
    (∀ t ∈ qterms_of st cfg text,
      0 < t.df ∧ t.df ≤ cfg.max_df_for_seed ∧
        ∃ idx, idx < st.uniq.length ∧ st.uniq.getD idx 0 = t.h ∧
          t.L = st.off.getD idx 0 ∧ t.R = st.off.getD (idx + 1) 0) ∧
    stage_interZip st cfg text =
      (stage_cands st cfg text).map (fun c =>
        (c, min ((qterms_of st cfg text).countP
          (fun t => decide (c.1 ∈ sliceLR st t.L t.R))) 65535)) := by
  constructor
  · intro t ht
    have h := mem_qtermsLoop (mem_qterms_of ht)
    rcases h.2.2.2.2 with ⟨idx, hidx, hh, hL, hR, _⟩
    exact ⟨h.2.1, h.2.2.1, idx, hidx, hh, hL, hR⟩
  · rw [stage_interZip, stage_cands]
    exact interZipOf_eq hsl (cands_of_pairwise cfg (stage_raw st cfg text))

unseal Rat.mul Rat.inv Rat.add Rat.sub in
set_option maxRecDepth 100000 in
/-- C1 witness: the amended intersection theorem applied to the concrete
two-hash index. -/
theorem C1_witness :
    (∀ t ∈ qterms_of ceStateC1 ceCfgC1 ceQuery,
      (sliceLR ceStateC1 t.L t.R).Pairwise (· ≤ ·)) ∧
    stage_interZip ceStateC1 ceCfgC1 ceQuery =
      (stage_cands ceStateC1 ceCfgC1 ceQuery).map (fun c =>
        (c, min ((qterms_of ceStateC1 ceCfgC1 ceQuery).countP
          (fun t => decide (c.1 ∈ sliceLR ceStateC1 t.L t.R))) 65535)) :=
  ⟨by decide,
   (C1_intersection_of_retained_terms ceStateC1 ceCfgC1 ceQuery (by decide)).2⟩

/-! ### C3 — per-document dedup and posting-slice invariants of the builders -/

theorem pairLt_asymm (a b : Nat × Nat) (h : pairLt a b = true) :
    pairLt b a = false := by
  simp only [pairLt, decide_eq_true_eq] at h
  simp only [pairLt, decide_eq_false_iff_not]
  omega

theorem pairLt_neg_trans (a b c : Nat × Nat) (h1 : pairLt b a = false)
    (h2 : pairLt c b = false) : pairLt c a = false := by
  simp only [pairLt, decide_eq_false_iff_not] at h1 h2 ⊢
  omega

theorem pairLt_le_antisymm {a b : Nat × Nat} (h1 : pairLt b a = false)
    (h2 : pairLt a b = false) : a = b := by
  obtain ⟨a1, a2⟩ := a
  obtain ⟨b1, b2⟩ := b
  simp only [pairLt, decide_eq_false_iff_not] at h1 h2
  have h : a1 = b1 ∧ a2 = b2 := by omega
  rw [h.1, h.2]

/-- The external-sort + merge-dedup output is strictly increasing in the
`(h, doc)` order; in particular it holds no duplicate record. -/
theorem mergedPairs_pairwise (docs : List Document) :
    (mergedPairs docs).Pairwise (fun a b => a ≠ b ∧ pairLt b a = false) := by
  refine @dedupAdj_pairwise_strict (Nat × Nat) _
    (fun a b => pairLt b a = false)
    (fun a b c h1 h2 => pairLt_neg_trans a b c h1 h2) ?_ _ ?_
  · intro a b hne h1 c h2 heq
    exact hne (pairLt_le_antisymm h1 (heq ▸ h2))
  · exact sortByLt_pairwise pairLt_asymm pairLt_neg_trans _

theorem mergedPairs_nodup (docs : List Document) :
    (mergedPairs docs).Nodup :=
  (mergedPairs_pairwise docs).imp (fun h => h.1)

theorem mem_groupPairs_pair :
    ∀ {l : List (Nat × Nat)} {g : Nat × List Nat},
      g ∈ groupPairs l → ∀ d ∈ g.2, (g.1, d) ∈ l := by
  intro l
  induction l with
  | nil => intro g hg; simp [groupPairs] at hg
  | cons p rest ih =>
      obtain ⟨h, d⟩ := p
      intro g hg d' hd'
      rcases hrest : groupPairs rest with _ | ⟨⟨h', ds⟩, gs⟩
      · simp only [groupPairs, hrest] at hg
        rcases List.mem_singleton.mp hg with rfl
        rcases List.mem_singleton.mp hd' with rfl
        exact List.mem_cons_self _ _
      · simp only [groupPairs, hrest] at hg
        by_cases hh : h = h'
        · rw [if_pos hh] at hg
          rcases List.mem_cons.mp hg with rfl | hg
          · rcases List.mem_cons.mp hd' with rfl | hd'
            · exact List.mem_cons_self _ _
            · have : ((h', ds).1, d') ∈ rest :=
                ih (by rw [hrest]; exact List.mem_cons_self _ _) d' hd'
              exact List.mem_cons_of_mem _ (by rw [hh]; exact this)
          · exact List.mem_cons_of_mem _
              (ih (by rw [hrest]; exact List.mem_cons_of_mem _ hg) d' hd')
        · rw [if_neg hh] at hg
          rcases List.mem_cons.mp hg with rfl | hg
          · rcases List.mem_singleton.mp hd' with rfl
            exact List.mem_cons_self _ _
          · exact List.mem_cons_of_mem _
              (ih (by rw [hrest]; exact hg) d' hd')

/-- Grouping a strictly `(h, doc)`-increasing posting list by hash gives
strictly increasing doc lists inside every group. -/
theorem groupPairs_snd_pairwise {l : List (Nat × Nat)}
    (hl : l.Pairwise (fun a b => a ≠ b ∧ pairLt b a = false)) :
    ∀ g ∈ groupPairs l, g.2.Pairwise (· < ·) := by
  induction l with
  | nil => simp [groupPairs]
  | cons p rest ih =>
      obtain ⟨h, d⟩ := p
      rcases List.pairwise_cons.mp hl with ⟨hhead, hrestpw⟩
      have ihr := ih hrestpw
      intro g hg
      rcases hrest : groupPairs rest with _ | ⟨⟨h', ds⟩, gs⟩
      · simp only [groupPairs, hrest] at hg
        rcases List.mem_singleton.mp hg with rfl
        simp
      · simp only [groupPairs, hrest] at hg
        by_cases hh : h = h'
        · rw [if_pos hh] at hg
          rcases List.mem_cons.mp hg with rfl | hg
          · refine List.pairwise_cons.mpr ⟨?_, ?_⟩
            · intro d' hd'
              have hmem : (h', d') ∈ rest :=
                mem_groupPairs_pair (l := rest) (g := (h', ds))
                  (by rw [hrest]; exact List.mem_cons_self _ _) d' hd'
              rcases hhead (h', d') hmem with ⟨hne, hle⟩
              have hle' : ¬ (h' < h ∨ (h' = h ∧ d' < d)) := by
                simpa [pairLt] using hle
              have hdd : d ≠ d' := by
                intro heq
                exact hne (by rw [hh, heq])
              omega
            · exact ihr (h', ds) (by rw [hrest]; exact List.mem_cons_self _ _)
          · exact ihr g (by rw [hrest]; exact List.mem_cons_of_mem _ hg)
        · rw [if_neg hh] at hg
          rcases List.mem_cons.mp hg with rfl | hg
          · simp
          · exact ihr g (by rw [hrest]; exact hg)

theorem offsetsFrom_length :
    ∀ (L : List (List Nat)) (a : Nat), (offsetsFrom L a).length = L.length + 1 := by
  intro L
  induction L with
  | nil => intro a; rfl
  | cons ds rest ih => intro a; simp [offsetsFrom, ih]

theorem offsetsFrom_head (L : List (List Nat)) (a : Nat) :
    (offsetsFrom L a).getD 0 0 = a := by
  cases L <;> rfl

/-- The CSR row pointers cut `flatten` exactly at the group boundaries. -/
theorem slice_offsets :
    ∀ (L : List (List Nat)) (pre : List Nat) (i : Nat), i < L.length →
      ((pre ++ L.flatten).drop ((offsetsFrom L pre.length).getD i 0)).take
        ((offsetsFrom L pre.length).getD (i + 1) 0 -
          (offsetsFrom L pre.length).getD i 0) = L.getD i [] := by
  intro L
  induction L with
  | nil => intro pre i hi; simp at hi
  | cons ds rest ih =>
      intro pre i hi
      cases i with
      | zero =>
          simp only [offsetsFrom, List.getD_cons_zero, List.getD_cons_succ,
            List.flatten_cons, List.getD_cons_zero]
          rw [offsetsFrom_head]
          have hd : pre.length + ds.length - pre.length = ds.length := by omega
          rw [hd, List.drop_left, List.take_left]
      | succ j =>
          have hj : j < rest.length := by
            simpa using Nat.lt_of_succ_lt_succ hi
          have hstep := ih (pre ++ ds) j hj
          have hlen : (pre ++ ds).length = pre.length + ds.length :=
            List.length_append pre ds
          rw [hlen, List.append_assoc] at hstep
          simp only [offsetsFrom, List.getD_cons_succ, List.flatten_cons,
            List.getD_cons_succ]
          exact hstep

/-- The posting slice addressed by row `i` of the built index is exactly
the `i`-th group's doc list. -/
theorem buildIndex_slice (docs : List Document) (i : Nat)
    (hi : i < (groupPairs (mergedPairs docs)).length) :
    sliceLR (buildIndex docs) ((buildIndex docs).off.getD i 0)
        ((buildIndex docs).off.getD (i + 1) 0) =
      ((groupPairs (mergedPairs docs)).map (·.2)).getD i [] := by
  have hoff : (buildIndex docs).off =
      offsetsFrom ((groupPairs (mergedPairs docs)).map (·.2)) 0 := rfl
  have hdid : (buildIndex docs).did =
      ((groupPairs (mergedPairs docs)).map (·.2)).flatten := rfl
  have hi' : i < ((groupPairs (mergedPairs docs)).map (·.2)).length := by
    simpa using hi
  have h := slice_offsets ((groupPairs (mergedPairs docs)).map (·.2)) [] i hi'
  simp only [List.nil_append, List.length_nil] at h
  unfold sliceLR
  rw [hoff, hdid]
  exact h

theorem dedupAdj_sorted_nodup (l : List Nat) :
    (dedupAdj (sortByLt (fun a b => decide (a < b)) l)).Nodup := by
  have hs := @sortByLt_pairwise Nat (fun a b : Nat => decide (a < b))
    (by intro a b h; simp only [decide_eq_true_eq] at h
        simp only [decide_eq_false_iff_not]; omega)
    (by intro a b c h1 h2
        simp only [decide_eq_false_iff_not] at h1 h2 ⊢; omega) l
  have hd := @dedupAdj_pairwise_strict Nat _
    (fun a b : Nat => decide (b < a) = false)
    (by intro a b c h1 h2
        simp only [decide_eq_false_iff_not] at h1 h2 ⊢; omega)
    (by intro a b hne h1 c h2 heq
        subst heq
        simp only [decide_eq_false_iff_not] at h1 h2
        exact hne (by omega))
    _ hs
  exact hd.imp (fun h => h.1)

theorem worker_dedup_nodup (t : List Nat) : (worker_dedup_hashes t).Nodup :=
  dedupAdj_sorted_nodup (worker_doc_hashes t)

/-- C3 (amended, level-5 builder): `worker_thread` dedups each document's
shingle hashes by sort + unique, so a document contributes a hash at most
once to the run buffer; the external sort and merge-time dedup leave no
duplicate `(hash, doc)` record; and in the built CSR index every posting
slice carries strictly ascending doc ids. (The etl builder variant's
`process_range` performs no per-document dedup and can emit duplicate
`(hash, doc)` pairs — see the counterexample.) -/
theorem C3_builder_dedup_invariants (docs : List Document) :
    (∀ d : Document, (worker_dedup_hashes d.text).Nodup) ∧
    (mergedPairs docs).Nodup ∧
    (∀ i, i < (groupPairs (mergedPairs docs)).length →
      (sliceLR (buildIndex docs) ((buildIndex docs).off.getD i 0)
        ((buildIndex docs).off.getD (i + 1) 0)).Pairwise (· < ·)) := by
  refine ⟨fun d => worker_dedup_nodup d.text, mergedPairs_nodup docs, ?_⟩
  intro i hi
  rw [buildIndex_slice docs i hi]
  have hlt : i < ((groupPairs (mergedPairs docs)).map (·.2)).length := by
    simpa using hi
  have hmem : ((groupPairs (mergedPairs docs)).map (·.2)).getD i [] ∈
      (groupPairs (mergedPairs docs)).map (·.2) := by
    rw [List.getD_eq_getElem _ _ hlt]
    exact List.getElem_mem _
  rcases List.mem_map.mp hmem with ⟨g, hg, hgd⟩
  rw [← hgd]
  exact groupPairs_snd_pairwise (mergedPairs_pairwise docs) g hg

/-- The 10-identical-token document: its two length-9 shingles hash
identically. -/
def ceDocC3 : Document :=
  { doc_id := "A", text := asciiBytes "a a a a a a a a a a" }

set_option maxRecDepth 100000 in
/-- C3 counterexample (etl builder variant): `process_range` of
`etl_index_builder.cpp` emits every shingle occurrence without
per-document dedup, so the 10-token document of identical tokens
contributes the same `(hash, doc)` pair twice; building a CSR from those
postings (as `load_v1_build_csr` does, which also never dedups) yields a
posting slice `[0, 0]` — not strictly ascending. The level-5 worker's
sort + unique collapses the same document to a single posting. -/
theorem C3_counterexample :
    etl_process_range_postings [ceDocC3] =
      [(14498641344665479270, 0), (14498641344665479270, 0)] ∧
    ¬ (etl_process_range_postings [ceDocC3]).Nodup ∧
    groupPairs (sortByLt pairLt (etl_process_range_postings [ceDocC3])) =
      [(14498641344665479270, [0, 0])] ∧
    worker_dedup_hashes ceDocC3.text = [14498641344665479270] ∧
    mergedPairs [ceDocC3] = [(14498641344665479270, 0)] := by
  decide

set_option maxRecDepth 100000 in
/-- C3 witness: the amended invariants evaluated on a concrete two-document
corpus (the counterexample document plus the 12-token test document). -/
theorem C3_witness :
    (worker_dedup_hashes ceDocC3.text).Nodup ∧
    (mergedPairs [ceDocC3, docA]).Nodup ∧
    (0 < (groupPairs (mergedPairs [ceDocC3, docA])).length ∧
      (sliceLR (buildIndex [ceDocC3, docA])
        ((buildIndex [ceDocC3, docA]).off.getD 0 0)
        ((buildIndex [ceDocC3, docA]).off.getD 1 0)).Pairwise (· < ·)) :=
  ⟨(C3_builder_dedup_invariants [ceDocC3, docA]).1 ceDocC3,
   (C3_builder_dedup_invariants [ceDocC3, docA]).2.1,
   by decide,
   (C3_builder_dedup_invariants [ceDocC3, docA]).2.2 0 (by decide)⟩

/-! ### C5 — shape of the result list on a valid index -/

/-- The posting slice addressed by CSR row `i`. -/
def rowSlice (st : IndexState) (i : Nat) : List Nat :=
  sliceLR st (st.off.getD i 0) (st.off.getD (i + 1) 0)

/-- Number of CSR rows whose posting slice contains document `d`. On an
index built from a corpus this is the number of distinct shingle hashes
of `d`, which is at most `tok_len(d) - K + 1`. -/
def rowsContaining (st : IndexState) (d : Nat) : Nat :=
  (List.range st.uniq.length).countP (fun i => decide (d ∈ rowSlice st i))

theorem mem_did_of_mem_sliceLR {st : IndexState} {L R x : Nat}
    (h : x ∈ sliceLR st L R) : x ∈ st.did := by
  unfold sliceLR at h
  exact List.drop_subset _ _ (List.take_subset _ _ h)

theorem query_hashes_nodup (text : List Nat) : (query_hashes text).Nodup := by
  unfold query_hashes
  dsimp only
  split_ifs with h
  · exact List.nodup_nil
  · exact dedupAdj_sorted_nodup _

theorem qterms_of_hashes_nodup (st : IndexState) (cfg : IndexConfig)
    (text : List Nat) : ((qterms_of st cfg text).map (·.h)).Nodup := by
  have hbase : ((qtermsLoop st cfg.max_df_for_seed (query_hashes text) 0).map
      (·.h)).Nodup :=
    (query_hashes_nodup text).sublist (qtermsLoop_hashes_sublist _ _)
  unfold qterms_of
  dsimp only
  have hsortnod : ((sortByLt (fun a b : QTerm => decide (a.df < b.df))
      (qtermsLoop st cfg.max_df_for_seed (query_hashes text) 0)).map
      (·.h)).Nodup := by
    refine (List.Perm.nodup_iff ?_).mpr hbase
    exact (sortByLt_perm _ _).map _
  have htrunc :
      ((if (qtermsLoop st cfg.max_df_for_seed (query_hashes text) 0).length >
            cfg.max_q_uniq9 then
          (sortByLt (fun a b : QTerm => decide (a.df < b.df))
            (qtermsLoop st cfg.max_df_for_seed (query_hashes text) 0)).take
            cfg.max_q_uniq9
        else qtermsLoop st cfg.max_df_for_seed (query_hashes text) 0).map
        (·.h)).Nodup := by
    split_ifs with hcut
    · rw [List.map_take]
      exact hsortnod.sublist (List.take_sublist _ _)
    · exact hbase
  refine (List.Perm.nodup_iff ?_).mpr htrunc
  exact (sortByLt_perm _ _).map _

/-- Query terms with pairwise-distinct hashes each address a distinct
`uniq` row, so at most `|R|` of them can be tagged into a row list `R`. -/
theorem length_le_of_tagged (st : IndexState) :
    ∀ (L : List QTerm) (R : List Nat),
      (L.map (·.h)).Nodup →
      (∀ t ∈ L, ∃ i ∈ R, st.uniq.getD i 0 = t.h) →
      L.length ≤ R.length := by
  intro L
  induction L with
  | nil => intro R _ _; simp
  | cons t L' ih =>
      intro R hnod hall
      rcases hall t (List.mem_cons_self _ _) with ⟨i, hiR, hih⟩
      simp only [List.map_cons, List.nodup_cons] at hnod
      have hR' : ∀ t' ∈ L', ∃ i' ∈ R.erase i, st.uniq.getD i' 0 = t'.h := by
        intro t' ht'
        rcases hall t' (List.mem_cons_of_mem _ ht') with ⟨i', hi'R, hi'h⟩
        have hne : i' ≠ i := by
          intro heq
          subst heq
          exact hnod.1 (by
            rw [← hih, hi'h]
            exact List.mem_map_of_mem _ ht')
        exact ⟨i', (List.mem_erase_of_ne hne).mpr hi'R, hi'h⟩
      have hrec := ih (R.erase i) hnod.2 hR'
      have hlen := List.length_erase_of_mem hiR
      have hpos : 0 < R.length := List.length_pos_of_mem hiR
      simp only [List.length_cons]
      omega

/-- The number of query terms whose slice contains `d` is at most the
number of CSR rows whose slice contains `d`. -/
theorem countP_le_rows (st : IndexState) (qt : List QTerm) (d : Nat)
    (hnod : (qt.map (·.h)).Nodup)
    (hq : ∀ t ∈ qt, ∃ i, i < st.uniq.length ∧ st.uniq.getD i 0 = t.h ∧
      t.L = st.off.getD i 0 ∧ t.R = st.off.getD (i + 1) 0) :
    qt.countP (fun t => decide (d ∈ sliceLR st t.L t.R)) ≤
      rowsContaining st d := by
  rw [List.countP_eq_length_filter]
  rw [rowsContaining, List.countP_eq_length_filter]
  apply length_le_of_tagged st
  · exact hnod.sublist ((List.filter_sublist qt).map _)
  · intro t ht
    have htq : t ∈ qt := List.mem_of_mem_filter ht
    have hP : d ∈ sliceLR st t.L t.R := by
      have := List.of_mem_filter ht
      simpa using this
    rcases hq t htq with ⟨i, hilt, hih, hiL, hiR⟩
    refine ⟨i, ?_, hih⟩
    apply List.mem_filter.mpr
    refine ⟨List.mem_range.mpr hilt, ?_⟩
    simp only [rowSlice, decide_eq_true_eq]
    rw [← hiL, ← hiR]
    exact hP

theorem clamp01_bounds (x : ℚ) : 0 ≤ clamp01 x ∧ clamp01 x ≤ 1 := by
  unfold clamp01
  split_ifs with h1 h2 <;> constructor <;> linarith

/-- Bounds of `jc_compute`: both returned ratios lie in `[0, 1]` whenever
the intersection is at most the query size and at most the doc size. -/
theorem jc_bounds {inter q t : Int} (hiq : inter ≤ q) (hit : inter ≤ t) :
    0 ≤ (jc_compute inter q t).1 ∧ (jc_compute inter q t).1 ≤ 1 ∧
    0 ≤ (jc_compute inter q t).2 ∧ (jc_compute inter q t).2 ≤ 1 := by
  simp only [jc_compute]
  split_ifs with h1 h2
  · norm_num
  · push_neg at h1
    obtain ⟨hi, hq, ht⟩ := h1
    refine ⟨?_, ?_, ?_, ?_⟩
    · apply div_nonneg
      · exact_mod_cast hi.le
      · exact_mod_cast h2.le
    · rw [div_le_one (by exact_mod_cast h2)]
      exact_mod_cast (by omega : inter ≤ q + t - inter)
    · apply div_nonneg
      · exact_mod_cast hi.le
      · exact_mod_cast hq.le
    · rw [div_le_one (by exact_mod_cast hq)]
      exact_mod_cast hiq
  · push_neg at h1
    obtain ⟨hi, hq, ht⟩ := h1
    refine ⟨le_refl 0, zero_le_one, ?_, ?_⟩
    · apply div_nonneg
      · exact_mod_cast hi.le
      · exact_mod_cast hq.le
    · rw [div_le_one (by exact_mod_cast hq)]
      exact_mod_cast hiq

theorem convex_score_bounds {a w j c : ℚ} (ha0 : 0 ≤ a) (ha1 : a ≤ 1)
    (hw0 : 0 ≤ w) (hw1 : w ≤ 1) (hj0 : 0 ≤ j) (hj1 : j ≤ 1)
    (hc0 : 0 ≤ c) (hc1 : c ≤ 1) :
    0 ≤ w * (a * j + (1 - a) * c) ∧ w * (a * j + (1 - a) * c) ≤ 1 := by
  have h1 : 0 ≤ a * j := mul_nonneg ha0 hj0
  have h2 : 0 ≤ (1 - a) * c := mul_nonneg (by linarith) hc0
  have hS0 : 0 ≤ a * j + (1 - a) * c := by linarith
  have h3 : a * j ≤ a * 1 := mul_le_mul_of_nonneg_left hj1 ha0
  have h4 : (1 - a) * c ≤ (1 - a) * 1 :=
    mul_le_mul_of_nonneg_left hc1 (by linarith)
  have hS1 : a * j + (1 - a) * c ≤ 1 := by nlinarith
  constructor
  · exact mul_nonneg hw0 hS0
  · nlinarith

set_option maxHeartbeats 1000000 in
/-- C5: on an index whose loaded configuration keeps `w_min_doc ≥ 1` (the
config loader always does), whose query-term posting slices are sorted,
and whose per-document posting-row count respects the shingle-count bound
`rowsContaining d + K ≤ tok_len(d) + 1` (both hold for every index the
builder produces), every query of at least `K` tokens yields a hit list
that is sorted by score descending, with every score in
`[0, max (w9, 1)]` and every returned local doc id below `N_docs`. -/
theorem C5_results_sorted_bounded (st : IndexState) (cfg : IndexConfig)
    (text : List Nat) (top_k : Int)
    (_htok : K ≤ (tokenize_spans (normalize_for_shingles_simple text)).length)
    (hwmin : 1 ≤ cfg.w_min_doc)
    (hsl : ∀ t ∈ qterms_of st cfg text,
      (sliceLR st t.L t.R).Pairwise (· ≤ ·))
    (hrows : ∀ d ∈ st.did,
      rowsContaining st d + K ≤ tok_len_at st d + 1) :
    (search_text st cfg text top_k).Pairwise (fun a b => b.score ≤ a.score) ∧
    ∀ h ∈ search_text st cfg text top_k,
      h.did < st.N ∧ 0 ≤ h.score ∧ h.score ≤ max cfg.w9 1 := by
  refine ⟨search_text_sorted st cfg text top_k, ?_⟩
  intro h hm
  have hsc := mem_search_text hm
  rw [stage_scored] at hsc
  rcases mem_scoredOf hsc with ⟨x, hx, hdid, hch, hnz, hwd, hK, hj, hc, hs⟩
  have hdlt : h.did < st.N := by
    rw [hdid]
    by_contra hge
    have hz : tok_len_at st x.1.1 = 0 := by
      unfold tok_len_at
      rw [if_neg hge]
    rw [hz] at hwd
    omega
  have hiz : stage_interZip st cfg text =
      (stage_cands st cfg text).map (fun c =>
        (c, min ((qterms_of st cfg text).countP
          (fun t => decide (c.1 ∈ sliceLR st t.L t.R))) 65535)) := by
    rw [stage_interZip, stage_cands]
    exact interZipOf_eq hsl (cands_of_pairwise _ _)
  rw [hiz] at hx
  rcases List.mem_map.mp hx with ⟨c, hcmem, rfl⟩
  dsimp only at hdid hch hnz hwd hK hj hc
  have hq : min ((qterms_of st cfg text).countP
      (fun t => decide (c.1 ∈ sliceLR st t.L t.R))) 65535 ≤
      (qterms_of st cfg text).length :=
    le_trans (min_le_left _ _) (List.countP_le_length _)
  have hcnt_pos : 0 < (qterms_of st cfg text).countP
      (fun t => decide (c.1 ∈ sliceLR st t.L t.R)) := by
    omega
  have hd_mem : c.1 ∈ st.did := by
    rcases List.countP_pos_iff.mp hcnt_pos with ⟨t, htq, hpt⟩
    exact mem_did_of_mem_sliceLR (of_decide_eq_true hpt)
  have hqfacts : ∀ t ∈ qterms_of st cfg text, ∃ i, i < st.uniq.length ∧
      st.uniq.getD i 0 = t.h ∧ t.L = st.off.getD i 0 ∧
      t.R = st.off.getD (i + 1) 0 := by
    intro t ht
    have hmq := mem_qtermsLoop (mem_qterms_of ht)
    rcases hmq.2.2.2.2 with ⟨i, hi, hh', hL, hR, _⟩
    exact ⟨i, hi, hh', hL, hR⟩
  have hrowsle : (qterms_of st cfg text).countP
      (fun t => decide (c.1 ∈ sliceLR st t.L t.R)) ≤ rowsContaining st c.1 :=
    countP_le_rows st _ c.1 (qterms_of_hashes_nodup st cfg text) hqfacts
  have hrowbound := hrows c.1 hd_mem
  have hjb := @jc_bounds
    ((min ((qterms_of st cfg text).countP
      (fun t => decide (c.1 ∈ sliceLR st t.L t.R))) 65535 : Nat) : Int)
    (((qterms_of st cfg text).length : Nat) : Int)
    ((tok_len_at st c.1 : Int) - K + 1)
    (by exact_mod_cast hq)
    (by push_cast; omega)
  rw [hs, hj, hc]
  have hcl_a := clamp01_bounds cfg.alpha
  have hcl_w := clamp01_bounds cfg.w9
  have hconv := convex_score_bounds hcl_a.1 hcl_a.2 hcl_w.1 hcl_w.2
    hjb.1 hjb.2.1 hjb.2.2.1 hjb.2.2.2
  exact ⟨hdlt, hconv.1, le_trans hconv.2 (le_max_right _ _)⟩

set_option maxRecDepth 100000 in
/-- C5 witness: the shape theorem applied to the one-document test index
with the default (loader-clamped) configuration and its 12-token query. -/
theorem C5_witness :
    (K ≤ (tokenize_spans (normalize_for_shingles_simple docA.text)).length ∧
     1 ≤ defaultConfig.w_min_doc ∧
     (∀ t ∈ qterms_of (buildIndex [docA]) defaultConfig docA.text,
       (sliceLR (buildIndex [docA]) t.L t.R).Pairwise (· ≤ ·)) ∧
     (∀ d ∈ (buildIndex [docA]).did,
       rowsContaining (buildIndex [docA]) d + K ≤
         tok_len_at (buildIndex [docA]) d + 1)) ∧
    ((search_text (buildIndex [docA]) defaultConfig docA.text 10).Pairwise
      (fun a b => b.score ≤ a.score) ∧
     ∀ h ∈ search_text (buildIndex [docA]) defaultConfig docA.text 10,
       h.did < (buildIndex [docA]).N ∧ 0 ≤ h.score ∧
         h.score ≤ max defaultConfig.w9 1) :=
  ⟨⟨by decide, by decide, by decide, by decide⟩,
   C5_results_sorted_bounded (buildIndex [docA]) defaultConfig docA.text 10
     (by decide) (by decide) (by decide) (by decide)⟩

/-! ### C7 — single-directory fan-out of the multi-index search -/

/-- The aggregation entry created for the first hit of a key (the `none`
branch of the `aggStep` update). -/
def initAgg (ids : List String) (dir : String) (di : Int) (h : Hit) :
    AggHit :=
  { best_index_dir := dir, score := h.score, j9 := h.j, c9 := h.c,
    cand_hits := h.cand_hits, found_in := 1, last_seen_dir := di,
    is_fallback := !has_real_docid ids h, did := h.did }

theorem assocUpdate_append (key : String) (f : Option AggHit → AggHit) :
    ∀ (agg : List (String × AggHit)), key ∉ agg.map (·.1) →
      assocUpdate key f agg = agg ++ [(key, f none)] := by
  intro agg
  induction agg with
  | nil => intro _; rfl
  | cons kv rest ih =>
      obtain ⟨k, v⟩ := kv
      intro hnot
      simp only [List.map_cons, List.mem_cons] at hnot
      push_neg at hnot
      rw [assocUpdate, if_neg (fun heq => hnot.1 heq.symm), ih hnot.2]
      rfl

/-- When the aggregation keys of the local hits are pairwise distinct and
none is already present, the aggregation fold just appends one fresh entry
per hit, in order. -/
theorem foldl_aggStep_eq_map (ids : List String) (dir : String) (di : Int) :
    ∀ (hits : List Hit) (agg : List (String × AggHit)),
      (∀ h ∈ hits, agg_key ids dir h ∉ agg.map (·.1)) →
      (hits.map (agg_key ids dir)).Nodup →
      hits.foldl (aggStep ids dir di) agg =
        agg ++ hits.map (fun h => (agg_key ids dir h, initAgg ids dir di h)) := by
  intro hits
  induction hits with
  | nil => intro agg _ _; simp
  | cons h hs ih =>
      intro agg hdisj hnod
      simp only [List.map_cons, List.nodup_cons] at hnod
      rw [List.foldl_cons]
      have hstep : aggStep ids dir di agg h =
          agg ++ [(agg_key ids dir h, initAgg ids dir di h)] := by
        unfold aggStep
        rw [assocUpdate_append _ _ agg (hdisj h (List.mem_cons_self _ _))]
        rfl
      have hdisj' : ∀ h' ∈ hs, agg_key ids dir h' ∉
          (agg ++ [(agg_key ids dir h, initAgg ids dir di h)]).map (·.1) := by
        intro h' hh'
        rw [List.map_append, List.mem_append]
        rintro (hc | hc)
        · exact hdisj h' (List.mem_cons_of_mem _ hh') hc
        · simp only [List.map_cons, List.map_nil, List.mem_singleton] at hc
          exact hnod.1 (hc ▸ List.mem_map_of_mem _ hh')
      rw [hstep, ih (agg ++ [(agg_key ids dir h, initAgg ids dir di h)])
        hdisj' hnod.2, List.append_assoc]
      rfl

set_option maxHeartbeats 1000000 in
/-- Two calls of `search_text` with positive top-k arguments return nested
prefixes: the smaller top-k result is the `take` of the larger one. -/
theorem search_text_take (st : IndexState) (cfg : IndexConfig)
    (text : List Nat) (k1 k2 : Int) (hp1 : 0 < k1) (hp2 : 0 < k2)
    (hle : k2 ≤ k1) :
    (search_text st cfg text k1).take k2.toNat =
      search_text st cfg text k2 := by
  unfold search_text
  rw [if_neg (not_le.mpr hp1), if_neg (not_le.mpr hp2)]
  split_ifs <;>
    first
      | simp only [List.take_nil]
      | (generalize stage_scored st cfg text = L
         rw [List.take_take]
         congr 1
         omega)

theorem choose_local_k_one (k : Nat) (hk : k ≤ 2000) :
    choose_local_k k 1 = k * 4 := by
  unfold choose_local_k
  dsimp only
  split_ifs <;> omega

/-- C7 (amended): for a single index directory, a top-k between 1 and the
2000 hard cap, a nonempty query, and local hits whose aggregation keys are
pairwise distinct (no two returned docs share an external docid), the
multi-index search returns exactly the direct `search_text` hits with the
same top-k: identical scores, J/C values, candidate counts, and the
external docid of each hit. (When two local docs share an external docid
the aggregation collapses them into one output hit — see the
counterexample.) -/
theorem C7_single_dir_fanout (st : IndexState) (cfg : IndexConfig)
    (dir : String) (query : List Nat) (top_k : Int)
    (h1 : 1 ≤ top_k) (h2 : top_k ≤ 2000) (hq : query ≠ [])
    (hkeys : ((search_text st cfg query
        ((choose_local_k (clamp_topk top_k) 1 : Nat) : Int)).map
        (agg_key st.docIds dir)).Nodup) :
    seg_search_many_one st cfg dir query top_k =
      some ((search_text st cfg query top_k).map (fun h =>
        { doc_id := if has_real_docid st.docIds h then
              st.docIds.getD h.did ""
            else toString h.did
          doc_uid := agg_key st.docIds dir h
          best_index_dir := dir
          score := h.score
          j9 := h.j
          c9 := h.c
          cand_hits := h.cand_hits
          found_in := 1 })) := by
  have hktn : clamp_topk top_k = top_k.toNat := by
    unfold clamp_topk
    rw [if_neg (by omega), if_neg (by omega)]
  have hk0 : ¬ (clamp_topk top_k = 0) := by
    rw [hktn]
    omega
  have hlkval : choose_local_k (clamp_topk top_k) 1 = top_k.toNat * 4 := by
    rw [hktn]
    exact choose_local_k_one _ (by omega)
  unfold seg_search_many_one
  dsimp only
  rw [if_neg hk0, if_neg hq]
  have hmap := foldl_aggStep_eq_map st.docIds dir 0
    (search_text st cfg query
      ((choose_local_k (clamp_topk top_k) 1 : Nat) : Int)) []
    (by intro h hh; simp) hkeys
  rw [hmap]
  have hsorted := search_text_sorted st cfg query
    ((choose_local_k (clamp_topk top_k) 1 : Nat) : Int)
  have hsortid : sortByLt (fun a b => decide (b.2.score < a.2.score))
      ((search_text st cfg query
        ((choose_local_k (clamp_topk top_k) 1 : Nat) : Int)).map
        (fun h => (agg_key st.docIds dir h, initAgg st.docIds dir 0 h))) =
      (search_text st cfg query
        ((choose_local_k (clamp_topk top_k) 1 : Nat) : Int)).map
        (fun h => (agg_key st.docIds dir h, initAgg st.docIds dir 0 h)) := by
    apply sortByLt_eq_self
    rw [List.pairwise_map]
    refine hsorted.imp ?_
    intro a b hab
    simpa using not_lt_of_le hab
  rw [List.nil_append, hsortid, ← List.map_take, hktn]
  have hlk2 : choose_local_k top_k.toNat 1 = top_k.toNat * 4 :=
    choose_local_k_one _ (by omega)
  rw [search_text_take st cfg query
    ((choose_local_k top_k.toNat 1 : Nat) : Int) top_k
    (by rw [hlk2]; omega) (by omega) (by rw [hlk2]; omega)]
  rw [List.map_map]
  refine congrArg some (List.map_congr_left ?_)
  intro h _
  by_cases hreal : has_real_docid st.docIds h = true
  · simp [Function.comp, agg_key, initAgg, hreal]
  · simp [Function.comp, agg_key, initAgg, hreal]

/-- A 9-token text: one shingle. -/
def t9 : List Nat :=
  asciiBytes "alpha beta gamma delta epsilon zeta eta theta iota"

/-- The same text with one extra token: two shingles, one shared with
`t9`. -/
def t10 : List Nat :=
  asciiBytes "alpha beta gamma delta epsilon zeta eta theta iota kappa"

/-- A two-document index whose documents share the external docid `"X"`. -/
def stX : IndexState := buildIndex [⟨"X", t9⟩, ⟨"X", t10⟩]

unseal Rat.mul Rat.inv Rat.add Rat.sub in
set_option maxRecDepth 100000 in
set_option maxHeartbeats 1000000 in
/-- C7 counterexample: on an index whose two documents carry the same
external docid `"X"`, the direct search returns two hits (scores `9/10`
and `63/100`) but the single-directory multi-index search aggregates them
under the shared key and returns only one hit (score `9/10`): the hit
with score `63/100` is missing from the fan-out result, so the hit lists
are not the same. -/
theorem C7_counterexample :
    stX.docIds = ["X", "X"] ∧
    (search_text stX defaultConfig t9 2).map (fun h => (h.did, h.score)) =
      [(0, 9 / 10), (1, 63 / 100)] ∧
    seg_search_many_one stX defaultConfig "X" t9 2 =
      some [{ doc_id := "X", doc_uid := "X", best_index_dir := "X",
              score := 9 / 10, j9 := 1, c9 := 1, cand_hits := 1,
              found_in := 1 }] := by
  decide

unseal Rat.mul Rat.inv Rat.add Rat.sub in
set_option maxRecDepth 100000 in
set_option maxHeartbeats 1000000 in
/-- C7 witness: the fan-out equivalence applied to the one-document test
index, whose aggregation keys are distinct. -/
theorem C7_witness :
    ((1 : Int) ≤ 1 ∧ (1 : Int) ≤ 2000 ∧ docA.text ≠ [] ∧
      ((search_text (buildIndex [docA]) defaultConfig docA.text
        ((choose_local_k (clamp_topk 1) 1 : Nat) : Int)).map
        (agg_key (buildIndex [docA]).docIds "idx")).Nodup) ∧
    seg_search_many_one (buildIndex [docA]) defaultConfig "idx" docA.text 1 =
      some ((search_text (buildIndex [docA]) defaultConfig docA.text 1).map
        (fun h =>
          { doc_id := if has_real_docid (buildIndex [docA]).docIds h then
                (buildIndex [docA]).docIds.getD h.did ""
              else toString h.did
            doc_uid := agg_key (buildIndex [docA]).docIds "idx" h
            best_index_dir := "idx"
            score := h.score
            j9 := h.j
            c9 := h.c
            cand_hits := h.cand_hits
            found_in := 1 })) :=
  ⟨⟨by decide, by decide, by decide, by decide⟩,
   C7_single_dir_fanout (buildIndex [docA]) defaultConfig "idx" docA.text 1
     (by decide) (by decide) (by decide) (by decide)⟩

end AntiPlag
